import Mathlib

/-!
Verification development for the `htc-generate-random-scenario` trip
generators (three Python scripts: the basic unaggregated generator, the
time-slot segmented generator and the aggregating generator).

Modelling conventions:
* Randomness is an explicit oracle `Rng := List Nat`.  Every call of
  `random.choice` / `random.randint` consumes exactly one oracle value and
  reduces it modulo the size of the requested range, so an arbitrary oracle
  reaches exactly the values the Python primitives can produce.  An
  exhausted oracle, an empty sequence passed to `choice`, or an empty range
  passed to `randint` makes the operation fail (`none`), mirroring the
  Python exceptions (`IndexError` / `ValueError`).
* The streaming XML reader is modelled by its event stream: the parser of
  each script is a fold over `start`/`stop` element events, exactly
  following the context-tracking loop of `parse_network_iterative`.
* Python dictionaries are association lists preserving insertion order
  (Python dicts preserve insertion order); floats are modelled as `ℚ`.
-/

/-- Oracle of raw random draws.  Each sampling primitive consumes one
value; an exhausted oracle makes the primitive fail. -/
abbrev Rng := List Nat

/-- `random.choice(seq)`: the oracle-selected element of a non-empty
sequence; fails on an empty sequence (Python raises `IndexError`). -/
def choice {α : Type} (l : List α) (r : Rng) : Option (α × Rng) :=
  match r with
  | [] => none
  | k :: r' =>
    if h : 0 < l.length then
      some (l.get ⟨k % l.length, Nat.mod_lt _ h⟩, r')
    else none

/-- `random.randint(a, b)`: an oracle-selected integer of `[a, b]`; fails
when `a > b` (Python raises `ValueError`). -/
def randint (a b : Nat) (r : Rng) : Option (Nat × Rng) :=
  match r with
  | [] => none
  | k :: r' => if a ≤ b then some (a + k % (b - a + 1), r') else none

/-! ## Network loading (`parse_network_iterative`, all three scripts) -/

/-- One event of the streaming XML parse (`ET.iterparse`, events
`start`/`end`). -/
inductive XEvent where
  | start (tag : String) (attrs : List (String × String))
  | stop (tag : String)
deriving DecidableEq, Repr

/-- The informal context flag of the parser loop (`context` variable). -/
inductive Ctx where
  | nodes
  | links
deriving DecidableEq, Repr

/-- `elem.get(key)` on the modelled attribute list. -/
def attrGet (attrs : List (String × String)) (k : String) : Option String :=
  List.lookup k attrs

/-- Mutable state of the parser loop: collected node ids, the
outgoing-links dictionary, the context flag. -/
structure PState where
  nodeIds : List String
  outgoing : List (String × List String)
  ctx : Option Ctx
deriving DecidableEq, Repr

/-- `outgoing_links[from_node].append(link_id)` with defaulting insertion:
append to the entry of the key, or add a new singleton entry at the end. -/
def addLink : List (String × List String) → String → String → List (String × List String)
  | [], f, l => [(f, [l])]
  | (k, ls) :: rest, f, l =>
    if k = f then (k, ls ++ [l]) :: rest else (k, ls) :: addLink rest f l

/-- One iteration of the parser's event loop.  Note the Python truthiness
tests: an absent or empty `id`/`from` attribute is skipped. -/
def parseStep (st : PState) (e : XEvent) : PState :=
  match e with
  | .start tag attrs =>
    if tag = "nodes" then { st with ctx := some Ctx.nodes }
    else if tag = "links" then { st with ctx := some Ctx.links }
    else if st.ctx = some Ctx.nodes ∧ tag = "node" then
      match attrGet attrs "id" with
      | some nid => if nid ≠ "" then { st with nodeIds := st.nodeIds ++ [nid] } else st
      | none => st
    else if st.ctx = some Ctx.links ∧ tag = "link" then
      match attrGet attrs "from", attrGet attrs "id" with
      | some f, some lid =>
        if f ≠ "" ∧ lid ≠ "" then { st with outgoing := addLink st.outgoing f lid } else st
      | _, _ => st
    else st
  | .stop tag =>
    if tag = "nodes" ∨ tag = "links" then { st with ctx := none } else st

/-- `outgoing_links[n]` read through `n in outgoing_links` tests: the list
of outgoing link ids of `n`, empty when `n` is not a key. -/
def linksOf (og : List (String × List String)) (n : String) : List String :=
  (List.lookup n og).getD []

/-- `valid_origin_nodes`: the nodes that are keys of the dictionary with a
non-empty (truthy) link list. -/
def validOrigins (nodes : List String) (og : List (String × List String)) : List String :=
  nodes.filter (fun n => !(linksOf og n).isEmpty)

/-- `valid_origin_nodes_count` of the parsers' final consistency check. -/
def validOriginCount (nodes : List String) (og : List (String × List String)) : Nat :=
  nodes.countP (fun n => !(linksOf og n).isEmpty)

def initPState : PState := ⟨[], [], none⟩

/-- `parse_network_iterative` of `generante_random_trips.py`: the event
fold followed by the critical consistency check (`return None, None` when
nodes and links both exist but no node is a valid origin). -/
def parseNetwork1 (evs : List XEvent) : Option (List String × List (String × List String)) :=
  let st := evs.foldl parseStep initPState
  if validOriginCount st.nodeIds st.outgoing = 0 ∧ st.nodeIds ≠ [] ∧ st.outgoing ≠ [] then
    none
  else some (st.nodeIds, st.outgoing)

/-- `parse_network_iterative` of `generate_random_trips_segmented.py`: the
same fold, but the no-valid-origin situation only prints a message and the
parsed data is returned anyway. -/
def parseNetwork2 (evs : List XEvent) : Option (List String × List (String × List String)) :=
  let st := evs.foldl parseStep initPState
  some (st.nodeIds, st.outgoing)

/-- `parse_network_iterative` of `generate_random_trips_segmented_group.py`
is line-for-line the check of the basic script. -/
def parseNetwork3 (evs : List XEvent) : Option (List String × List (String × List String)) :=
  parseNetwork1 evs

/-- Modelled from the spec: the data model's reading of the nodes sequence
(`NetworkIndex.nodes`), used as the refinement reference for the parser:
the id attributes of `node` elements read inside a `nodes` region, in
document order. -/
def specNodeIds (c : Option Ctx) (evs : List XEvent) : List String :=
  match evs with
  | [] => []
  | e :: es =>
    match e with
    | .start tag attrs =>
      if tag = "nodes" then specNodeIds (some Ctx.nodes) es
      else if tag = "links" then specNodeIds (some Ctx.links) es
      else if c = some Ctx.nodes ∧ tag = "node" then
        match attrGet attrs "id" with
        | some nid => if nid ≠ "" then nid :: specNodeIds c es else specNodeIds c es
        | none => specNodeIds c es
      else specNodeIds c es
    | .stop tag => if tag = "nodes" ∨ tag = "links" then specNodeIds none es else specNodeIds c es

/-! ## Trip records -/

/-- One `<trip .../>` record as written by the generators. -/
structure Trip where
  name : String
  origin : String
  destination : String
  link_origin : String
  count : Nat
  start : Nat
  mode : String
  digital_rails_capable : String
deriving DecidableEq, Repr

/-- A raw sampled trip of the aggregating script, before grouping. -/
structure Raw where
  origin : String
  destination : String
  link_origin : String
  start : Nat
deriving DecidableEq, Repr

/-- The aggregation key `(origem, destino, tempo_inicio)`. -/
def Raw.key (t : Raw) : String × String × Nat := (t.origin, t.destination, t.start)

/-- The aggregation key of an output record. -/
def Trip.key (t : Trip) : String × String × Nat := (t.origin, t.destination, t.start)

/-! ## Basic unaggregated generator (`generante_random_trips.py`) -/

/-- The destination rejection loop
`while len(node_ids) > 1 and destination_node == origin_node: redraw`
(the inner `random.choice(node_ids)` is inlined so the recursion is
structural on the oracle). -/
def redrawNE (nodes : List String) (origin : String) : String → Rng → Option (String × Rng)
  | d, [] =>
    if 1 < nodes.length ∧ d = origin then none else some (d, [])
  | d, k :: r' =>
    if 1 < nodes.length ∧ d = origin then
      if h : 0 < nodes.length then
        redrawNE nodes origin (nodes.get ⟨k % nodes.length, Nat.mod_lt _ h⟩) r'
      else none
    else some (d, k :: r')

/-- Destination selection of the basic and aggregating scripts: one draw
over all nodes, then the unbounded rejection loop. -/
def destSelBasic (nodes : List String) (origin : String) (r : Rng) : Option (String × Rng) :=
  match choice nodes r with
  | none => none
  | some (d, r') => redrawNE nodes origin d r'

/-- One loop iteration of `generate_and_write_trips_iterative` (basic
script): origin, link origin, destination, start time. -/
def sampleBasicTrip (nodes : List String) (og : List (String × List String))
    (vo : List String) (nm : String) (maxT : Nat) (r : Rng) : Option (Trip × Rng) :=
  match choice vo r with
  | none => none
  | some (origin, r1) =>
    match List.lookup origin og with
    | none => none
    | some links =>
      match choice links r1 with
      | none => none
      | some (lk, r2) =>
        match destSelBasic nodes origin r2 with
        | none => none
        | some (dest, r3) =>
          match randint 0 maxT r3 with
          | none => none
          | some (s, r4) =>
            some ({ name := nm, origin := origin, destination := dest,
                    link_origin := lk, count := 1, start := s,
                    mode := "car", digital_rails_capable := "false" }, r4)

/-- The `for i in range(1, num_trips + 1)` loop of the basic script. -/
def gen1Go (nodes : List String) (og : List (String × List String)) (vo : List String)
    (maxT : Nat) : Nat → Nat → Rng → Option (List Trip × Rng)
  | _, 0, r => some ([], r)
  | i, rem + 1, r =>
    match sampleBasicTrip nodes og vo ("trip_" ++ toString i) maxT r with
    | none => none
    | some (t, r') =>
      match gen1Go nodes og vo maxT (i + 1) rem r' with
      | none => none
      | some (ts, r'') => some (t :: ts, r'')

/-- `generate_and_write_trips_iterative` of the basic script: guards on an
empty node list and on an empty valid-origin list, then the trip loop. -/
def generateTrips1 (nodes : List String) (og : List (String × List String))
    (numTrips maxT : Nat) (r : Rng) : Option (List Trip × Rng) :=
  if nodes.isEmpty then none
  else if (validOrigins nodes og).isEmpty then none
  else gen1Go nodes og (validOrigins nodes og) maxT 1 numTrips r

/-! ## Aggregating generator (`generate_random_trips_segmented_group.py`) -/

/-- One iteration of the raw-sampling loop of
`generate_aggregated_and_sorted_trips` (same draws as the basic script,
without a name). -/
def sampleGroupRaw (nodes : List String) (og : List (String × List String))
    (vo : List String) (maxT : Nat) (r : Rng) : Option (Raw × Rng) :=
  match choice vo r with
  | none => none
  | some (origin, r1) =>
    match List.lookup origin og with
    | none => none
    | some links =>
      match choice links r1 with
      | none => none
      | some (lk, r2) =>
        match destSelBasic nodes origin r2 with
        | none => none
        | some (dest, r3) =>
          match randint 0 maxT r3 with
          | none => none
          | some (s, r4) =>
            some ({ origin := origin, destination := dest,
                    link_origin := lk, start := s }, r4)

/-- The `for _ in range(num_trips_to_generate)` raw-sampling loop, returning
the sampled stream in generation order. -/
def genGroupGo (nodes : List String) (og : List (String × List String)) (vo : List String)
    (maxT : Nat) : Nat → Rng → Option (List Raw × Rng)
  | 0, r => some ([], r)
  | rem + 1, r =>
    match sampleGroupRaw nodes og vo maxT r with
    | none => none
    | some (t, r') =>
      match genGroupGo nodes og vo maxT rem r' with
      | none => none
      | some (ts, r'') => some (t :: ts, r'')

/-- An entry of `aggregated_trips_map`: key, count, and the link origin of
the first raw trip observed for the key. -/
abbrev AggEntry := (String × String × Nat) × Nat × String

/-- One raw trip folded into `aggregated_trips_map`: a fresh key is added
at the end with count 1; an existing key keeps its first link origin and
its count is incremented. -/
def bump : List AggEntry → (String × String × Nat) → String → List AggEntry
  | [], k, lk => [(k, 1, lk)]
  | (k', c, l) :: rest, k, lk =>
    if k' = k then (k', c + 1, l) :: rest else (k', c, l) :: bump rest k lk

/-- The aggregation fold over the raw stream, starting from a given map. -/
def aggregateFrom (m : List AggEntry) (raw : List Raw) : List AggEntry :=
  raw.foldl (fun m t => bump m t.key t.link_origin) m

/-- Conversion of a map entry to an output record (`processed_trips_list`
element; the `name` field is assigned later). -/
def entryToTrip (e : AggEntry) : Trip :=
  { name := "", origin := e.1.1, destination := e.1.2.1, start := e.1.2.2,
    count := e.2.1, link_origin := e.2.2, mode := "car",
    digital_rails_capable := "false" }

/-- The sort key `lambda x: x['start']` as an order on records.  The
stable `list.sort` of Python coincides with stable insertion sort. -/
def tripLE (a b : Trip) : Prop := a.start ≤ b.start

instance : DecidableRel tripLE := fun a b => Nat.decLe a.start b.start

instance : IsTotal Trip tripLE := ⟨fun a b => Nat.le_total a.start b.start⟩

instance : IsTrans Trip tripLE := ⟨fun _ _ _ h h' => Nat.le_trans h h'⟩

/-- The final naming pass: `trip_data_copy['name'] = f"trip_{i+1}"` with `i`
the position in the sorted list. -/
def assignNames : Nat → List Trip → List Trip
  | _, [] => []
  | i, t :: ts => { t with name := "trip_" ++ toString (i + 1) } :: assignNames (i + 1) ts

/-- Aggregation, sorting by start time and sequential renaming
(`generate_aggregated_and_sorted_trips` after the raw-sampling loop). -/
def aggregateAndSort (raw : List Raw) : List Trip :=
  assignNames 0 (List.insertionSort tripLE ((aggregateFrom [] raw).map entryToTrip))

/-- `generate_aggregated_and_sorted_trips`: the guards return an empty
record list (not a failure), otherwise the raw stream is sampled,
aggregated, sorted and renamed. -/
def genGroup (nodes : List String) (og : List (String × List String))
    (numTrips maxT : Nat) (r : Rng) : Option (List Trip × Rng) :=
  if nodes.isEmpty then some ([], r)
  else if (validOrigins nodes og).isEmpty then some ([], r)
  else
    match genGroupGo nodes og (validOrigins nodes og) maxT numTrips r with
    | none => none
    | some (raw, r') => some (aggregateAndSort raw, r')

/-! ## Segmented generator (`generate_random_trips_segmented.py`) -/

/-- One time slot as produced by `parse_time_slots_json` (seconds and the
traffic share). -/
structure Slot where
  name : String
  start_sec : Nat
  end_sec : Nat
  percentage : ℚ
deriving DecidableEq, Repr

/-- Python `round` on a rational value: nearest integer, ties to even. -/
def pyRound (q : ℚ) : ℤ :=
  if q - ⌊q⌋ < 1 / 2 then ⌊q⌋
  else if 1 / 2 < q - ⌊q⌋ then ⌊q⌋ + 1
  else if ⌊q⌋ % 2 = 0 then ⌊q⌋ else ⌊q⌋ + 1

/-- Python `int()` truncation toward zero, applied to the exact rational
product `num_trips * percentage = (num_trips * percentage.num) /
percentage.den`: truncating that ratio toward zero is the t-division of the
scaled numerator by the denominator. -/
def truncMulNat (n : Nat) (q : ℚ) : ℤ :=
  ((n : ℤ) * q.num).tdiv (q.den : ℤ)

/-- `n` consecutive `random.randint(lo, hi)` draws, in draw order. -/
def drawsFor (lo hi : Nat) : Nat → Rng → Option (List Nat × Rng)
  | 0, r => some ([], r)
  | n + 1, r =>
    match randint lo hi r with
    | none => none
    | some (x, r') =>
      match drawsFor lo hi n r' with
      | none => none
      | some (xs, r'') => some (x :: xs, r'')

/-- The per-slot quota loop building `all_trip_start_times`: every slot but
the last gets `round(num_trips * percentage)` draws over its clipped range,
the last slot gets `num_trips - trips_allocated_count` draws (a negative
remainder yields no draw, as `range` of a negative count is empty). -/
def quotaLoop (numTrips maxT : Nat) : List Slot → ℤ → Rng → Option (List Nat × Rng)
  | [], _, r => some ([], r)
  | [s], allocated, r =>
    drawsFor s.start_sec (min s.end_sec maxT) ((numTrips - allocated).toNat) r
  | s :: s2 :: rest, allocated, r =>
    let q : ℤ := pyRound ((numTrips : ℚ) * s.percentage)
    match drawsFor s.start_sec (min s.end_sec maxT) q.toNat r with
    | none => none
    | some (xs, r') =>
      match quotaLoop numTrips maxT (s2 :: rest) (allocated + q) r' with
      | none => none
      | some (ys, r'') => some (xs ++ ys, r'')

/-- The shortfall target: the last slot, scanned in reverse order, that is
still usable after clipping (`s_start <= s_end and s_start <= max`). -/
def lastUsableSlot (slots : List Slot) (maxT : Nat) : Option (Nat × Nat) :=
  match slots.reverse.find? (fun s =>
      decide (s.start_sec ≤ min s.end_sec maxT ∧ s.start_sec ≤ maxT)) with
  | some s => some (s.start_sec, min s.end_sec maxT)
  | none => none

/-- One iteration of the refill loop: a draw from the last usable slot, or
from `[0, max_start_time_simulation]` when no slot is usable. -/
def refillOne (slots : List Slot) (maxT : Nat) (r : Rng) : Option (Nat × Rng) :=
  match lastUsableSlot slots maxT with
  | some (lo, hi) => randint lo hi r
  | none => randint 0 maxT r

/-- The `while len(all_trip_start_times) < num_trips` refill loop: each
iteration appends exactly one draw, so the loop runs once per missing
entry. -/
def refillDraws (slots : List Slot) (maxT : Nat) : Nat → Rng → Option (List Nat × Rng)
  | 0, r => some ([], r)
  | k + 1, r =>
    match refillOne slots maxT r with
    | none => none
    | some (x, r') =>
      match refillDraws slots maxT k r' with
      | none => none
      | some (xs, r'') => some (x :: xs, r'')

/-- The whole start-time pool: quota loop, shortfall refill, truncation to
exactly `num_trips` entries. -/
def allocateStartTimes (slots : List Slot) (numTrips maxT : Nat) (r : Rng) :
    Option (List Nat × Rng) :=
  match quotaLoop numTrips maxT slots 0 r with
  | none => none
  | some (p1, r') =>
    match refillDraws slots maxT (numTrips - p1.length) r' with
    | none => none
    | some (p2, r'') => some ((p1 ++ p2).take numTrips, r'')

/-- The bounded retry loop of the segmented destination selection
(`while destination_node == origin_node and attempts < max_attempts`),
driven by the remaining attempt budget. -/
def segRetry (nodes : List String) (origin : String) : String → Nat → Rng → Option (String × Rng)
  | d, 0, r => some (d, r)
  | d, left + 1, r =>
    if d = origin then
      match choice nodes r with
      | none => none
      | some (d', r') => segRetry nodes origin d' left r'
    else some (d, r)

/-- Segmented destination selection: an initial draw over all nodes, at
most `len(node_ids) + 5` redraws, then one draw from the complement set
`[n for n in node_ids if n != origin]` when it is non-empty; otherwise the
destination stays equal to the origin. -/
def destSelSeg (nodes : List String) (origin : String) (r : Rng) : Option (String × Rng) :=
  match choice nodes r with
  | none => none
  | some (d0, r1) =>
    match segRetry nodes origin d0 (nodes.length + 5) r1 with
    | none => none
    | some (d1, r2) =>
      if d1 = origin then
        let others := nodes.filter (fun n => n ≠ origin)
        if others.isEmpty then some (d1, r2)
        else choice others r2
      else some (d1, r2)

/-- Selection-without-replacement loop of the shuffle model, driven by a
fuel equal to the list length (each removal shortens the list by one). -/
def shuffleGo {α : Type} : Nat → List α → Rng → Option (List α × Rng)
  | _, [], r => some ([], r)
  | 0, _ :: _, _ => none
  | fuel + 1, a :: l, r =>
    match r with
    | [] => none
    | k :: r' =>
      let i : Fin (a :: l).length := ⟨k % (a :: l).length, Nat.mod_lt _ (Nat.succ_pos _)⟩
      match shuffleGo fuel ((a :: l).eraseIdx i) r' with
      | none => none
      | some (xs, r'') => some ((a :: l).get i :: xs, r'')

/-- `random.shuffle` applies an oracle-determined permutation in place; it
is modelled as oracle-driven selection without replacement (one oracle
value per element). -/
def shuffle {α : Type} (l : List α) (r : Rng) : Option (List α × Rng) :=
  shuffleGo l.length l r

/-- One iteration of the segmented trip loop: origin, link origin, then
either the forced equal destination (`is_this_trip_od_equal or
is_single_node_network`) or the bounded destination selection. -/
def sampleSegTrip (nodes : List String) (og : List (String × List String))
    (vo : List String) (singleNode : Bool) (nm : String) (s : Nat) (fl : Bool)
    (r : Rng) : Option (Trip × Rng) :=
  match choice vo r with
  | none => none
  | some (origin, r1) =>
    match List.lookup origin og with
    | none => none
    | some links =>
      match choice links r1 with
      | none => none
      | some (lk, r2) =>
        match (if fl || singleNode then some (origin, r2) else destSelSeg nodes origin r2) with
        | none => none
        | some (dest, r3) =>
          some ({ name := nm, origin := origin, destination := dest,
                  link_origin := lk, count := 1, start := s,
                  mode := "car", digital_rails_capable := "false" }, r3)

/-- The `for i in range(num_trips)` loop of the segmented script: trip `i`
reads `all_trip_start_times[i]` and `trip_is_od_equal_flags[i]` (list
exhaustion models Python's `IndexError`). -/
def genSegGo (nodes : List String) (og : List (String × List String)) (vo : List String)
    (singleNode : Bool) : Nat → List Nat → List Bool → Nat → Rng → Option (List Trip × Rng)
  | _, _, _, 0, r => some ([], r)
  | i, ss, fs, rem + 1, r =>
    match ss, fs with
    | s :: ss', fl :: fs' =>
      match sampleSegTrip nodes og vo singleNode ("trip_" ++ toString (i + 1)) s fl r with
      | none => none
      | some (t, r') =>
        match genSegGo nodes og vo singleNode (i + 1) ss' fs' rem r' with
        | none => none
        | some (ts, r'') => some (t :: ts, r'')
    | _, _ => none

/-- `generate_and_write_trips_iterative` of the segmented script: guards,
forcing of the origin=destination share on a single-node network, the
start-time pool, the shuffled equality flags, then the trip loop. -/
def generateTrips2 (nodes : List String) (og : List (String × List String))
    (numTrips maxT : Nat) (slots : List Slot) (pctOdEq : ℚ) (r : Rng) :
    Option (List Trip × Rng) :=
  if nodes.isEmpty then none
  else if (validOrigins nodes og).isEmpty then none
  else
    let singleNode := nodes.length == 1
    let actualPct := if singleNode then 1 else pctOdEq
    match allocateStartTimes slots numTrips maxT r with
    | none => none
    | some (starts, r1) =>
      let target := (truncMulNat numTrips actualPct).toNat
      let flags0 := List.replicate target true ++ List.replicate (numTrips - target) false
      match shuffle flags0 r1 with
      | none => none
      | some (flags, r2) =>
        genSegGo nodes og (validOrigins nodes og) singleNode 0 starts flags numTrips r2

/-! ## Derived views of the aggregation map -/

/-- The keys of an aggregation map, in insertion order. -/
def aggKeys (m : List AggEntry) : List (String × String × Nat) :=
  m.map (fun e => e.1)

/-- Total of the counts recorded by an aggregation map. -/
def aggTotal (m : List AggEntry) : Nat :=
  (m.map (fun e => e.2.1)).sum

/-- Count recorded by an aggregation map for one key (summed over all
entries carrying the key; a single entry when keys are distinct). -/
def aggCnt (m : List AggEntry) (k : String × String × Nat) : Nat :=
  ((m.filter (fun e => e.1 = k)).map (fun e => e.2.1)).sum

/-! ## Oracle primitive lemmas -/

theorem choice_spec {α : Type} {l : List α} {r : Rng} {x : α} {r' : Rng}
    (h : choice l r = some (x, r')) : x ∈ l ∧ r.length = r'.length + 1 := by
  cases r with
  | nil => simp [choice] at h
  | cons k rr =>
    simp only [choice] at h
    split at h
    · rw [Option.some.injEq, Prod.mk.injEq] at h
      obtain ⟨hx, hr⟩ := h
      subst hx; subst hr
      exact ⟨List.get_mem _ _ _, by simp⟩
    · exact absurd h (by simp)

theorem choice_isSome {α : Type} {l : List α} {r : Rng}
    (hl : 0 < l.length) (hr : r ≠ []) : (choice l r).isSome = true := by
  cases r with
  | nil => exact absurd rfl hr
  | cons k rr => simp [choice, hl]

theorem randint_spec {a b : Nat} {r : Rng} {x : Nat} {r' : Rng}
    (h : randint a b r = some (x, r')) :
    a ≤ x ∧ x ≤ b ∧ r.length = r'.length + 1 := by
  cases r with
  | nil => simp [randint] at h
  | cons k rr =>
    simp only [randint] at h
    split at h
    · rename_i hab
      rw [Option.some.injEq, Prod.mk.injEq] at h
      obtain ⟨hx, hr⟩ := h
      subst hx; subst hr
      refine ⟨Nat.le_add_right _ _, ?_, by simp⟩
      have hm : k % (b - a + 1) < b - a + 1 := Nat.mod_lt _ (Nat.succ_pos _)
      omega
    · exact absurd h (by simp)

theorem randint_isSome {a b : Nat} {r : Rng} (hab : a ≤ b) (hr : r ≠ []) :
    (randint a b r).isSome = true := by
  cases r with
  | nil => exact absurd rfl hr
  | cons k rr => simp [randint, hab]

/-! ## Basic variant lemmas -/

theorem redrawNE_ne {nodes : List String} {origin : String} :
    ∀ {r : Rng} {d d' : String} {r' : Rng},
      redrawNE nodes origin d r = some (d', r') → 1 < nodes.length → d' ≠ origin := by
  intro r
  induction r with
  | nil =>
    intro d d' r' h hl
    simp only [redrawNE] at h
    split at h
    · exact absurd h (by simp)
    · rename_i hcond
      rw [Option.some.injEq, Prod.mk.injEq] at h
      obtain ⟨hd, _⟩ := h; subst hd
      intro he; exact hcond ⟨hl, he⟩
  | cons k rr ih =>
    intro d d' r' h hl
    simp only [redrawNE] at h
    split at h
    · split at h
      · exact ih h hl
      · exact absurd h (by simp)
    · rename_i hcond
      rw [Option.some.injEq, Prod.mk.injEq] at h
      obtain ⟨hd, _⟩ := h; subst hd
      intro he; exact hcond ⟨hl, he⟩

theorem destSelBasic_ne {nodes : List String} {origin : String} {r : Rng}
    {d : String} {r' : Rng} (h : destSelBasic nodes origin r = some (d, r'))
    (hl : 1 < nodes.length) : d ≠ origin := by
  unfold destSelBasic at h
  cases h1 : choice nodes r with
  | none => rw [h1] at h; exact absurd h (by simp)
  | some p =>
    obtain ⟨d0, r1⟩ := p
    rw [h1] at h
    exact redrawNE_ne h hl

theorem sampleBasicTrip_spec {nodes : List String} {og : List (String × List String)}
    {vo : List String} {nm : String} {maxT : Nat} {r : Rng} {t : Trip} {r' : Rng}
    (h : sampleBasicTrip nodes og vo nm maxT r = some (t, r')) :
    t.origin ∈ vo ∧ t.link_origin ∈ linksOf og t.origin ∧ t.start ≤ maxT ∧
      (1 < nodes.length → t.destination ≠ t.origin) ∧ t.name = nm ∧ t.count = 1 := by
  unfold sampleBasicTrip at h
  split at h
  · exact absurd h (by simp)
  · rename_i origin r1 h1
    split at h
    · exact absurd h (by simp)
    · rename_i links h2
      split at h
      · exact absurd h (by simp)
      · rename_i lk r2 h3
        split at h
        · exact absurd h (by simp)
        · rename_i dest r3 h4
          split at h
          · exact absurd h (by simp)
          · rename_i s r4 h5
            rw [Option.some.injEq, Prod.mk.injEq] at h
            obtain ⟨ht, _⟩ := h
            subst ht
            refine ⟨(choice_spec h1).1, ?_, (randint_spec h5).2.1, ?_, rfl, rfl⟩
            · show lk ∈ linksOf og origin
              unfold linksOf
              rw [h2]
              exact (choice_spec h3).1
            · intro hl
              exact destSelBasic_ne h4 hl

theorem gen1Go_spec {nodes : List String} {og : List (String × List String)}
    {vo : List String} {maxT : Nat} :
    ∀ (rem i : Nat) {r : Rng} {ts : List Trip} {r' : Rng},
      gen1Go nodes og vo maxT i rem r = some (ts, r') →
      ts.length = rem ∧
        ∀ t ∈ ts, t.origin ∈ vo ∧ t.link_origin ∈ linksOf og t.origin ∧
          t.start ≤ maxT ∧ (1 < nodes.length → t.destination ≠ t.origin) ∧ t.count = 1 := by
  intro rem
  induction rem with
  | zero =>
    intro i r ts r' h
    simp only [gen1Go] at h
    rw [Option.some.injEq, Prod.mk.injEq] at h
    obtain ⟨hts, _⟩ := h; subst hts
    simp
  | succ n ih =>
    intro i r ts r' h
    simp only [gen1Go] at h
    split at h
    · exact absurd h (by simp)
    · rename_i t0 r0 h1
      split at h
      · exact absurd h (by simp)
      · rename_i ts0 r1 h2
        rw [Option.some.injEq, Prod.mk.injEq] at h
        obtain ⟨hts, _⟩ := h; subst hts
        obtain ⟨hlen, hall⟩ := ih (i + 1) h2
        have hs := sampleBasicTrip_spec h1
        refine ⟨by simp [hlen], ?_⟩
        intro t ht
        rcases List.mem_cons.mp ht with he | he
        · subst he
          exact ⟨hs.1, hs.2.1, hs.2.2.1, hs.2.2.2.1, hs.2.2.2.2.2⟩
        · exact hall t he

theorem generateTrips1_spec {nodes : List String} {og : List (String × List String)}
    {numTrips maxT : Nat} {r : Rng} {ts : List Trip} {r' : Rng}
    (h : generateTrips1 nodes og numTrips maxT r = some (ts, r')) :
    ts.length = numTrips ∧
      ∀ t ∈ ts, t.origin ∈ validOrigins nodes og ∧
        t.link_origin ∈ linksOf og t.origin ∧ t.start ≤ maxT ∧
        (1 < nodes.length → t.destination ≠ t.origin) ∧ t.count = 1 := by
  unfold generateTrips1 at h
  split at h
  · exact absurd h (by simp)
  · split at h
    · exact absurd h (by simp)
    · exact gen1Go_spec numTrips 1 h

/-! ## Aggregating variant lemmas -/

theorem sampleGroupRaw_spec {nodes : List String} {og : List (String × List String)}
    {vo : List String} {maxT : Nat} {r : Rng} {t : Raw} {r' : Rng}
    (h : sampleGroupRaw nodes og vo maxT r = some (t, r')) :
    t.origin ∈ vo ∧ t.link_origin ∈ linksOf og t.origin ∧ t.start ≤ maxT ∧
      (1 < nodes.length → t.destination ≠ t.origin) := by
  unfold sampleGroupRaw at h
  split at h
  · exact absurd h (by simp)
  · rename_i origin r1 h1
    split at h
    · exact absurd h (by simp)
    · rename_i links h2
      split at h
      · exact absurd h (by simp)
      · rename_i lk r2 h3
        split at h
        · exact absurd h (by simp)
        · rename_i dest r3 h4
          split at h
          · exact absurd h (by simp)
          · rename_i s r4 h5
            rw [Option.some.injEq, Prod.mk.injEq] at h
            obtain ⟨ht, _⟩ := h
            subst ht
            refine ⟨(choice_spec h1).1, ?_, (randint_spec h5).2.1, ?_⟩
            · show lk ∈ linksOf og origin
              unfold linksOf
              rw [h2]
              exact (choice_spec h3).1
            · intro hl
              exact destSelBasic_ne h4 hl

theorem genGroupGo_spec {nodes : List String} {og : List (String × List String)}
    {vo : List String} {maxT : Nat} :
    ∀ (rem : Nat) {r : Rng} {ts : List Raw} {r' : Rng},
      genGroupGo nodes og vo maxT rem r = some (ts, r') →
      ts.length = rem ∧
        ∀ t ∈ ts, t.origin ∈ vo ∧ t.link_origin ∈ linksOf og t.origin ∧
          t.start ≤ maxT ∧ (1 < nodes.length → t.destination ≠ t.origin) := by
  intro rem
  induction rem with
  | zero =>
    intro r ts r' h
    simp only [genGroupGo] at h
    rw [Option.some.injEq, Prod.mk.injEq] at h
    obtain ⟨hts, _⟩ := h; subst hts
    simp
  | succ n ih =>
    intro r ts r' h
    simp only [genGroupGo] at h
    split at h
    · exact absurd h (by simp)
    · rename_i t0 r0 h1
      split at h
      · exact absurd h (by simp)
      · rename_i ts0 r1 h2
        rw [Option.some.injEq, Prod.mk.injEq] at h
        obtain ⟨hts, _⟩ := h; subst hts
        obtain ⟨hlen, hall⟩ := ih h2
        have hs := sampleGroupRaw_spec h1
        refine ⟨by simp [hlen], ?_⟩
        intro t ht
        rcases List.mem_cons.mp ht with he | he
        · subst he; exact hs
        · exact hall t he

/-! ## Aggregation map lemmas -/


theorem aggKeys_cons (e : AggEntry) (m : List AggEntry) :
    aggKeys (e :: m) = e.1 :: aggKeys m := rfl

theorem aggTotal_cons (e : AggEntry) (m : List AggEntry) :
    aggTotal (e :: m) = e.2.1 + aggTotal m := by
  simp [aggTotal]

theorem aggCnt_cons (e : AggEntry) (m : List AggEntry) (k : String × String × Nat) :
    aggCnt (e :: m) k = (if e.1 = k then e.2.1 else 0) + aggCnt m k := by
  by_cases he : e.1 = k
  · simp [aggCnt, List.filter_cons, he]
  · simp [aggCnt, List.filter_cons, he]

theorem aggCnt_nil (k : String × String × Nat) : aggCnt [] k = 0 := rfl

theorem aggKeys_cons3 (k0 : String × String × Nat) (c : Nat) (l : String)
    (m : List AggEntry) : aggKeys ((k0, c, l) :: m) = k0 :: aggKeys m := rfl

theorem aggTotal_cons3 (k0 : String × String × Nat) (c : Nat) (l : String)
    (m : List AggEntry) : aggTotal ((k0, c, l) :: m) = c + aggTotal m :=
  aggTotal_cons (k0, c, l) m

theorem aggCnt_cons3 (k0 : String × String × Nat) (c : Nat) (l : String)
    (m : List AggEntry) (k : String × String × Nat) :
    aggCnt ((k0, c, l) :: m) k = (if k0 = k then c else 0) + aggCnt m k :=
  aggCnt_cons (k0, c, l) m k

theorem bump_cons_eq (k : String × String × Nat) (c : Nat) (l lk : String)
    (rest : List AggEntry) : bump ((k, c, l) :: rest) k lk = (k, c + 1, l) :: rest := by
  simp [bump]

theorem bump_cons_ne {k' k : String × String × Nat} (hk : k' ≠ k) (c : Nat) (l lk : String)
    (rest : List AggEntry) :
    bump ((k', c, l) :: rest) k lk = (k', c, l) :: bump rest k lk := by
  simp [bump, hk]

theorem aggTotal_bump (m : List AggEntry) (k : String × String × Nat) (lk : String) :
    aggTotal (bump m k lk) = aggTotal m + 1 := by
  induction m with
  | nil => simp [bump, aggTotal]
  | cons e rest ih =>
    obtain ⟨k', c, l⟩ := e
    by_cases hk : k' = k
    · subst hk
      rw [bump_cons_eq, aggTotal_cons3, aggTotal_cons3]
      omega
    · rw [bump_cons_ne hk, aggTotal_cons3, aggTotal_cons3, ih]
      omega

theorem aggCnt_bump_self (m : List AggEntry) (k : String × String × Nat) (lk : String) :
    aggCnt (bump m k lk) k = aggCnt m k + 1 := by
  induction m with
  | nil => simp [bump, aggCnt]
  | cons e rest ih =>
    obtain ⟨k', c, l⟩ := e
    by_cases hk : k' = k
    · subst hk
      rw [bump_cons_eq, aggCnt_cons3, aggCnt_cons3, if_pos rfl, if_pos rfl]
      omega
    · rw [bump_cons_ne hk, aggCnt_cons3, aggCnt_cons3, ih]
      omega

theorem aggCnt_bump_other (m : List AggEntry) (k k' : String × String × Nat) (lk : String)
    (hne : k' ≠ k) : aggCnt (bump m k lk) k' = aggCnt m k' := by
  have hne' : ¬(k = k') := fun he => hne he.symm
  induction m with
  | nil => simp [bump, aggCnt, hne']
  | cons e rest ih =>
    obtain ⟨k0, c, l⟩ := e
    by_cases hk : k0 = k
    · subst hk
      rw [bump_cons_eq, aggCnt_cons3, aggCnt_cons3, if_neg hne', if_neg hne']
    · rw [bump_cons_ne hk, aggCnt_cons3, aggCnt_cons3, ih]

theorem aggKeys_bump_mem (m : List AggEntry) (k : String × String × Nat) (lk : String)
    (hm : k ∈ aggKeys m) : aggKeys (bump m k lk) = aggKeys m := by
  induction m with
  | nil => simp [aggKeys] at hm
  | cons e rest ih =>
    obtain ⟨k', c, l⟩ := e
    by_cases hk : k' = k
    · subst hk
      rw [bump_cons_eq, aggKeys_cons3, aggKeys_cons3]
    · rw [aggKeys_cons3, List.mem_cons] at hm
      rcases hm with he | he
      · exact absurd he.symm hk
      · rw [bump_cons_ne hk, aggKeys_cons3, aggKeys_cons3, ih he]

theorem aggKeys_bump_not_mem (m : List AggEntry) (k : String × String × Nat) (lk : String)
    (hm : k ∉ aggKeys m) : aggKeys (bump m k lk) = aggKeys m ++ [k] := by
  induction m with
  | nil => simp [bump, aggKeys]
  | cons e rest ih =>
    obtain ⟨k', c, l⟩ := e
    by_cases hk : k' = k
    · subst hk
      exact absurd (by simp [aggKeys]) hm
    · rw [aggKeys_cons3, List.mem_cons] at hm
      push_neg at hm
      rw [bump_cons_ne hk, aggKeys_cons3, aggKeys_cons3, ih hm.2]
      rfl

theorem aggKeys_bump_mem_iff (m : List AggEntry) (k k' : String × String × Nat) (lk : String) :
    k' ∈ aggKeys (bump m k lk) ↔ k' ∈ aggKeys m ∨ k' = k := by
  by_cases hm : k ∈ aggKeys m
  · rw [aggKeys_bump_mem m k lk hm]
    constructor
    · exact Or.inl
    · rintro (he | he)
      · exact he
      · exact he ▸ hm
  · rw [aggKeys_bump_not_mem m k lk hm]
    simp

theorem aggKeys_bump_nodup (m : List AggEntry) (k : String × String × Nat) (lk : String)
    (hm : (aggKeys m).Nodup) : (aggKeys (bump m k lk)).Nodup := by
  by_cases hmem : k ∈ aggKeys m
  · rw [aggKeys_bump_mem m k lk hmem]; exact hm
  · rw [aggKeys_bump_not_mem m k lk hmem]
    have hp : List.Perm (aggKeys m ++ [k]) (k :: aggKeys m) :=
      List.perm_append_singleton k (aggKeys m)
    exact (List.Perm.nodup_iff hp).mpr (List.nodup_cons.mpr ⟨hmem, hm⟩)

theorem aggregateFrom_cons (m : List AggEntry) (t : Raw) (raw : List Raw) :
    aggregateFrom m (t :: raw) = aggregateFrom (bump m t.key t.link_origin) raw := rfl

theorem aggregateFrom_total : ∀ (raw : List Raw) (m : List AggEntry),
    aggTotal (aggregateFrom m raw) = aggTotal m + raw.length := by
  intro raw
  induction raw with
  | nil => intro m; simp [aggregateFrom]
  | cons t rest ih =>
    intro m
    rw [aggregateFrom_cons, ih, aggTotal_bump]
    simp
    omega

theorem aggregateFrom_cnt : ∀ (raw : List Raw) (m : List AggEntry) (k : String × String × Nat),
    aggCnt (aggregateFrom m raw) k = aggCnt m k + raw.countP (fun t => decide (t.key = k)) := by
  intro raw
  induction raw with
  | nil => intro m k; simp [aggregateFrom]
  | cons t rest ih =>
    intro m k
    rw [aggregateFrom_cons, ih, List.countP_cons]
    by_cases hk : t.key = k
    · subst hk
      rw [aggCnt_bump_self]
      simp
      omega
    · rw [aggCnt_bump_other m t.key k t.link_origin (fun he => hk he.symm)]
      simp [hk]

theorem aggregateFrom_nodup : ∀ (raw : List Raw) (m : List AggEntry),
    (aggKeys m).Nodup → (aggKeys (aggregateFrom m raw)).Nodup := by
  intro raw
  induction raw with
  | nil => intro m hm; exact hm
  | cons t rest ih =>
    intro m hm
    rw [aggregateFrom_cons]
    exact ih _ (aggKeys_bump_nodup m t.key t.link_origin hm)

theorem aggregateFrom_mem : ∀ (raw : List Raw) (m : List AggEntry) (k : String × String × Nat),
    k ∈ aggKeys (aggregateFrom m raw) ↔ k ∈ aggKeys m ∨ k ∈ raw.map Raw.key := by
  intro raw
  induction raw with
  | nil => intro m k; simp [aggregateFrom]
  | cons t rest ih =>
    intro m k
    rw [aggregateFrom_cons, ih, aggKeys_bump_mem_iff]
    simp only [List.map_cons, List.mem_cons]
    tauto

/-- A key outside a map has count zero. -/
theorem aggCnt_eq_zero_of_not_mem : ∀ (m : List AggEntry) {k : String × String × Nat},
    k ∉ aggKeys m → aggCnt m k = 0 := by
  intro m
  induction m with
  | nil => intro k _; rfl
  | cons e rest ih =>
    intro k hnm
    obtain ⟨k0, c0, l0⟩ := e
    rw [aggKeys_cons3, List.mem_cons] at hnm
    push_neg at hnm
    rw [aggCnt_cons3, if_neg (fun h => hnm.1 h.symm), ih hnm.2]

/-- An entry of a map with distinct keys records exactly the map's count
for its key. -/
theorem entry_cnt_of_nodup : ∀ (m : List AggEntry), (aggKeys m).Nodup →
    ∀ {k : String × String × Nat} {c : Nat} {l : String}, (k, c, l) ∈ m → c = aggCnt m k := by
  intro m
  induction m with
  | nil => intro _ k c l hm; simp at hm
  | cons e rest ih =>
    intro hnd k c l hm
    obtain ⟨k0, c0, l0⟩ := e
    rw [aggKeys_cons3, List.nodup_cons] at hnd
    rcases List.mem_cons.mp hm with he | he
    · have hkk : k = k0 := congrArg Prod.fst he
      have hcc : c = c0 := congrArg (fun p => p.2.1) he
      subst hkk; subst hcc
      rw [aggCnt_cons3, if_pos rfl, aggCnt_eq_zero_of_not_mem rest hnd.1]
      omega
    · have hk0 : k0 ≠ k := by
        intro hk
        subst hk
        exact hnd.1 (List.mem_map.mpr ⟨(k0, c, l), he, rfl⟩)
      rw [aggCnt_cons3, if_neg hk0]
      rw [ih hnd.2 he]
      omega

theorem entryToTrip_key (e : AggEntry) : (entryToTrip e).key = e.1 := rfl

theorem entryToTrip_count (e : AggEntry) : (entryToTrip e).count = e.2.1 := rfl

theorem map_entryToTrip_key (m : List AggEntry) :
    (m.map entryToTrip).map Trip.key = aggKeys m := by
  rw [List.map_map]
  rfl

theorem map_entryToTrip_count (m : List AggEntry) :
    (m.map entryToTrip).map Trip.count = m.map (fun e => e.2.1) := by
  rw [List.map_map]
  rfl

/-! ## Renaming pass lemmas -/

theorem assignNames_length : ∀ (l : List Trip) (i : Nat), (assignNames i l).length = l.length := by
  intro l
  induction l with
  | nil => intro i; rfl
  | cons t ts ih => intro i; simp [assignNames, ih]

theorem assignNames_map_key : ∀ (l : List Trip) (i : Nat),
    (assignNames i l).map Trip.key = l.map Trip.key := by
  intro l
  induction l with
  | nil => intro i; rfl
  | cons t ts ih =>
    intro i
    simp only [assignNames, List.map_cons, ih]
    rfl

theorem assignNames_map_count : ∀ (l : List Trip) (i : Nat),
    (assignNames i l).map Trip.count = l.map Trip.count := by
  intro l
  induction l with
  | nil => intro i; rfl
  | cons t ts ih =>
    intro i
    simp only [assignNames, List.map_cons, ih]

theorem assignNames_mem : ∀ (l : List Trip) (i : Nat) {t : Trip}, t ∈ assignNames i l →
    ∃ t' ∈ l, t.origin = t'.origin ∧ t.destination = t'.destination ∧
      t.start = t'.start ∧ t.count = t'.count := by
  intro l
  induction l with
  | nil => intro i t ht; simp [assignNames] at ht
  | cons u us ih =>
    intro i t ht
    rcases List.mem_cons.mp ht with he | he
    · exact ⟨u, List.mem_cons_self u us, by rw [he], by rw [he], by rw [he], by rw [he]⟩
    · obtain ⟨t', ht', hp⟩ := ih (i + 1) he
      exact ⟨t', List.mem_cons_of_mem u ht', hp⟩

theorem assignNames_pairwise : ∀ (l : List Trip) (i : Nat),
    List.Pairwise tripLE l → List.Pairwise tripLE (assignNames i l) := by
  intro l
  induction l with
  | nil => intro i _; exact List.Pairwise.nil
  | cons u us ih =>
    intro i hp
    rw [List.pairwise_cons] at hp
    refine List.pairwise_cons.mpr ⟨?_, ih (i + 1) hp.2⟩
    intro t ht
    obtain ⟨t', ht', _, _, hs, _⟩ := assignNames_mem us (i + 1) ht
    show ({ u with name := "trip_" ++ toString (i + 1) } : Trip).start ≤ t.start
    rw [hs]
    exact hp.1 t' ht'

theorem assignNames_get_name : ∀ (l : List Trip) (i j : Nat) (h : j < (assignNames i l).length),
    ((assignNames i l).get ⟨j, h⟩).name = "trip_" ++ toString (i + j + 1) := by
  intro l
  induction l with
  | nil => intro i j h; simp [assignNames] at h
  | cons u us ih =>
    intro i j h
    cases j with
    | zero => rfl
    | succ j' =>
      have h' : j' < (assignNames (i + 1) us).length := by
        simp only [assignNames, List.length_cons] at h
        omega
      simp only [assignNames, List.get_cons_succ]
      rw [ih (i + 1) j' h']
      have harith : i + 1 + j' + 1 = i + (j' + 1) + 1 := by omega
      rw [harith]

/-! ## Segmented variant lemmas: the start-time pool -/

theorem drawsFor_spec {lo hi : Nat} : ∀ (n : Nat) {r : Rng} {xs : List Nat} {r' : Rng},
    drawsFor lo hi n r = some (xs, r') →
    xs.length = n ∧ ∀ x ∈ xs, lo ≤ x ∧ x ≤ hi := by
  intro n
  induction n with
  | zero =>
    intro r xs r' h
    simp only [drawsFor] at h
    rw [Option.some.injEq, Prod.mk.injEq] at h
    obtain ⟨h1, _⟩ := h; subst h1
    simp
  | succ m ih =>
    intro r xs r' h
    simp only [drawsFor] at h
    split at h
    · exact absurd h (by simp)
    · rename_i x0 r0 h1
      split at h
      · exact absurd h (by simp)
      · rename_i xs0 r1 h2
        rw [Option.some.injEq, Prod.mk.injEq] at h
        obtain ⟨hx, _⟩ := h; subst hx
        obtain ⟨hlen, hall⟩ := ih h2
        have hr := randint_spec h1
        refine ⟨by simp [hlen], ?_⟩
        intro x hx
        rcases List.mem_cons.mp hx with he | he
        · subst he; exact ⟨hr.1, hr.2.1⟩
        · exact hall x he

theorem lastUsableSlot_le {slots : List Slot} {maxT lo hi : Nat}
    (h : lastUsableSlot slots maxT = some (lo, hi)) : hi ≤ maxT := by
  unfold lastUsableSlot at h
  split at h
  · rename_i s hs
    rw [Option.some.injEq, Prod.mk.injEq] at h
    obtain ⟨_, hh⟩ := h
    subst hh
    exact Nat.min_le_right _ _
  · exact absurd h (by simp)

theorem refillOne_le {slots : List Slot} {maxT : Nat} {r : Rng} {x : Nat} {r' : Rng}
    (h : refillOne slots maxT r = some (x, r')) : x ≤ maxT := by
  unfold refillOne at h
  split at h
  · rename_i lo hi hu
    exact le_trans (randint_spec h).2.1 (lastUsableSlot_le hu)
  · exact (randint_spec h).2.1

theorem refillDraws_spec {slots : List Slot} {maxT : Nat} :
    ∀ (k : Nat) {r : Rng} {xs : List Nat} {r' : Rng},
      refillDraws slots maxT k r = some (xs, r') →
      xs.length = k ∧ ∀ x ∈ xs, x ≤ maxT := by
  intro k
  induction k with
  | zero =>
    intro r xs r' h
    simp only [refillDraws] at h
    rw [Option.some.injEq, Prod.mk.injEq] at h
    obtain ⟨h1, _⟩ := h; subst h1
    simp
  | succ m ih =>
    intro r xs r' h
    simp only [refillDraws] at h
    split at h
    · exact absurd h (by simp)
    · rename_i x0 r0 h1
      split at h
      · exact absurd h (by simp)
      · rename_i xs0 r1 h2
        rw [Option.some.injEq, Prod.mk.injEq] at h
        obtain ⟨hx, _⟩ := h; subst hx
        obtain ⟨hlen, hall⟩ := ih h2
        refine ⟨by simp [hlen], ?_⟩
        intro x hx
        rcases List.mem_cons.mp hx with he | he
        · subst he; exact refillOne_le h1
        · exact hall x he

theorem quotaLoop_le {numTrips maxT : Nat} : ∀ (slots : List Slot) (alloc : ℤ) {r : Rng}
    {p : List Nat} {r' : Rng},
    quotaLoop numTrips maxT slots alloc r = some (p, r') → ∀ x ∈ p, x ≤ maxT := by
  intro slots
  induction slots with
  | nil =>
    intro alloc r p r' h
    simp only [quotaLoop] at h
    rw [Option.some.injEq, Prod.mk.injEq] at h
    obtain ⟨h1, _⟩ := h; subst h1
    simp
  | cons s rest ih =>
    intro alloc r p r' h
    cases rest with
    | nil =>
      simp only [quotaLoop] at h
      intro x hx
      exact le_trans ((drawsFor_spec _ h).2 x hx).2 (Nat.min_le_right _ _)
    | cons s2 rest2 =>
      simp only [quotaLoop] at h
      split at h
      · exact absurd h (by simp)
      · rename_i xs0 r0 h1
        split at h
        · exact absurd h (by simp)
        · rename_i ys0 r1 h2
          rw [Option.some.injEq, Prod.mk.injEq] at h
          obtain ⟨hp, _⟩ := h; subst hp
          intro x hx
          rcases List.mem_append.mp hx with he | he
          · exact le_trans ((drawsFor_spec _ h1).2 x he).2 (Nat.min_le_right _ _)
          · exact ih _ h2 x he

theorem allocateStartTimes_spec {slots : List Slot} {numTrips maxT : Nat} {r : Rng}
    {p : List Nat} {r' : Rng}
    (h : allocateStartTimes slots numTrips maxT r = some (p, r')) :
    p.length = numTrips ∧ ∀ x ∈ p, x ≤ maxT := by
  unfold allocateStartTimes at h
  split at h
  · exact absurd h (by simp)
  · rename_i p1 r1 h1
    split at h
    · exact absurd h (by simp)
    · rename_i p2 r2 h2
      rw [Option.some.injEq, Prod.mk.injEq] at h
      obtain ⟨hp, _⟩ := h; subst hp
      have hl2 := (refillDraws_spec _ h2).1
      constructor
      · rw [List.length_take, List.length_append, hl2]
        omega
      · intro x hx
        have hx' : x ∈ p1 ++ p2 := List.take_subset _ _ hx
        rcases List.mem_append.mp hx' with hx1 | hx2
        · exact quotaLoop_le slots 0 h1 x hx1
        · exact (refillDraws_spec _ h2).2 x hx2

/-! ## Segmented variant lemmas: destination selection -/

theorem segRetry_consume {nodes : List String} {origin : String} :
    ∀ (left : Nat) {d : String} {r : Rng} {d' : String} {r' : Rng},
      segRetry nodes origin d left r = some (d', r') → r.length ≤ r'.length + left := by
  intro left
  induction left with
  | zero =>
    intro d r d' r' h
    simp only [segRetry] at h
    rw [Option.some.injEq, Prod.mk.injEq] at h
    obtain ⟨_, hr⟩ := h
    subst hr
    omega
  | succ m ih =>
    intro d r d' r' h
    simp only [segRetry] at h
    split at h
    · split at h
      · exact absurd h (by simp)
      · rename_i d2 r2 hc
        have h1 := ih h
        have h2 := (choice_spec hc).2
        omega
    · rw [Option.some.injEq, Prod.mk.injEq] at h
      obtain ⟨_, hr⟩ := h
      subst hr
      omega

theorem segRetry_some {nodes : List String} {origin : String} (hn : 0 < nodes.length) :
    ∀ (left : Nat) (d : String) (r : Rng), left ≤ r.length →
      ∃ d' r', segRetry nodes origin d left r = some (d', r') := by
  intro left
  induction left with
  | zero => intro d r _; exact ⟨d, r, rfl⟩
  | succ m ih =>
    intro d r hlen
    by_cases hd : d = origin
    · cases r with
      | nil => simp at hlen
      | cons k rr =>
        have hc : choice nodes (k :: rr) =
            some (nodes.get ⟨k % nodes.length, Nat.mod_lt _ hn⟩, rr) := by
          simp [choice, hn]
        obtain ⟨d', r', hs⟩ := ih (nodes.get ⟨k % nodes.length, Nat.mod_lt _ hn⟩) rr
          (by simp at hlen ⊢; omega)
        refine ⟨d', r', ?_⟩
        simp only [segRetry, if_pos hd, hc]
        exact hs
    · exact ⟨d, r, by simp [segRetry, hd]⟩

/-- The union of the spec-relevant facts about the two-node filter set. -/
theorem exists_other {nodes : List String} (hd : nodes.Nodup) (hl : 2 ≤ nodes.length)
    (origin : String) : nodes.filter (fun n => n ≠ origin) ≠ [] := by
  match nodes, hl with
  | a :: b :: rest, _ =>
    rw [List.nodup_cons] at hd
    have hab : a ≠ b := fun he => hd.1 (he ▸ List.mem_cons_self b rest)
    by_cases ha : a = origin
    · subst ha
      intro hemp
      have hb : b ∈ List.filter (fun n => n ≠ a) (a :: b :: rest) :=
        List.mem_filter.mpr ⟨List.mem_cons_of_mem a (List.mem_cons_self b rest),
          decide_eq_true (Ne.symm hab)⟩
      rw [hemp] at hb
      exact absurd hb (List.not_mem_nil b)
    · intro hemp
      have hb : a ∈ List.filter (fun n => n ≠ origin) (a :: b :: rest) :=
        List.mem_filter.mpr ⟨List.mem_cons_self _ _, decide_eq_true ha⟩
      rw [hemp] at hb
      exact absurd hb (List.not_mem_nil a)

theorem destSelSeg_ne {nodes : List String} {origin : String} {r : Rng} {d : String} {r' : Rng}
    (hnd : nodes.Nodup) (hl : 2 ≤ nodes.length)
    (h : destSelSeg nodes origin r = some (d, r')) : d ≠ origin := by
  unfold destSelSeg at h
  split at h
  · exact absurd h (by simp)
  · rename_i d0 r1 h1
    split at h
    · exact absurd h (by simp)
    · rename_i d1 r2 h2
      dsimp only at h
      split at h
      · split at h
        · rename_i hemp
          rw [List.isEmpty_iff] at hemp
          exact absurd hemp (exists_other hnd hl origin)
        · have hm := (choice_spec h).1
          have hf := List.mem_filter.mp hm
          simpa using hf.2
      · rename_i hd1
        rw [Option.some.injEq, Prod.mk.injEq] at h
        obtain ⟨hdd, _⟩ := h
        subst hdd
        exact hd1

theorem destSelSeg_consume {nodes : List String} {origin : String} {r : Rng} {d : String}
    {r' : Rng} (h : destSelSeg nodes origin r = some (d, r')) :
    r.length ≤ r'.length + (nodes.length + 7) := by
  unfold destSelSeg at h
  split at h
  · exact absurd h (by simp)
  · rename_i d0 r1 h1
    split at h
    · exact absurd h (by simp)
    · rename_i d1 r2 h2
      have hc1 := (choice_spec h1).2
      have hc2 := segRetry_consume (nodes.length + 5) h2
      dsimp only at h
      split at h
      · split at h
        · rw [Option.some.injEq, Prod.mk.injEq] at h
          obtain ⟨_, hr⟩ := h
          subst hr
          omega
        · have hc3 := (choice_spec h).2
          omega
      · rw [Option.some.injEq, Prod.mk.injEq] at h
        obtain ⟨_, hr⟩ := h
        subst hr
        omega

theorem destSelSeg_isSome {nodes : List String} {origin : String} {r : Rng}
    (hn : nodes ≠ []) (hr : nodes.length + 7 ≤ r.length) :
    (destSelSeg nodes origin r).isSome = true := by
  have hn' : 0 < nodes.length := List.length_pos.mpr hn
  cases r with
  | nil => simp at hr
  | cons k rr =>
    have hc : choice nodes (k :: rr) =
        some (nodes.get ⟨k % nodes.length, Nat.mod_lt _ hn'⟩, rr) := by
      simp [choice, hn']
    obtain ⟨d1, r2, hs⟩ := segRetry_some hn' (nodes.length + 5)
      (nodes.get ⟨k % nodes.length, Nat.mod_lt _ hn'⟩) rr (by simp at hr ⊢; omega)
    have hr2 : 1 ≤ r2.length := by
      have := @segRetry_consume nodes origin (nodes.length + 5) _ _ _ _ hs
      simp at hr
      omega
    unfold destSelSeg
    rw [hc]
    simp only []
    rw [hs]
    simp only []
    split
    · split
      · simp
      · rename_i hemp
        have hne2 : r2 ≠ [] := by
          intro he
          rw [he] at hr2
          simp at hr2
        have hpos : 0 < (nodes.filter (fun n => n ≠ origin)).length := by
          rw [List.length_pos]
          intro he
          rw [← List.isEmpty_iff] at he
          exact hemp he
        exact choice_isSome hpos hne2
    · simp

/-! ## Shuffle lemmas -/

theorem cons_get_eraseIdx_perm {α : Type} : ∀ (l : List α) (i : Fin l.length),
    List.Perm (l.get i :: l.eraseIdx i) l := by
  intro l
  induction l with
  | nil => intro i; exact absurd i.isLt (by simp)
  | cons a l2 ih =>
    intro i
    match i with
    | ⟨0, _⟩ => exact List.Perm.refl _
    | ⟨j + 1, hj⟩ =>
      have hj' : j < l2.length := by
        simp only [List.length_cons] at hj
        omega
      have hrec := ih ⟨j, hj'⟩
      show List.Perm (l2.get ⟨j, hj'⟩ :: a :: l2.eraseIdx j) (a :: l2)
      exact List.Perm.trans (List.Perm.swap a (l2.get ⟨j, hj'⟩) (l2.eraseIdx j))
        (List.Perm.cons a hrec)

theorem shuffleGo_perm {α : Type} : ∀ (fuel : Nat) (l : List α) {r : Rng} {xs : List α}
    {r' : Rng}, l.length ≤ fuel → shuffleGo fuel l r = some (xs, r') → List.Perm xs l := by
  intro fuel
  induction fuel with
  | zero =>
    intro l r xs r' hl h
    have hnil : l = [] := List.length_eq_zero.mp (Nat.le_zero.mp hl)
    subst hnil
    simp only [shuffleGo] at h
    rw [Option.some.injEq, Prod.mk.injEq] at h
    obtain ⟨hx, _⟩ := h
    subst hx
    exact List.Perm.refl _
  | succ m ih =>
    intro l r xs r' hl h
    cases l with
    | nil =>
      simp only [shuffleGo] at h
      rw [Option.some.injEq, Prod.mk.injEq] at h
      obtain ⟨hx, _⟩ := h
      subst hx
      exact List.Perm.refl _
    | cons a l2 =>
      cases r with
      | nil => exact absurd h (by simp [shuffleGo])
      | cons k rr =>
        simp only [shuffleGo] at h
        split at h
        · exact absurd h (by simp)
        · rename_i ys r2 h2
          rw [Option.some.injEq, Prod.mk.injEq] at h
          obtain ⟨hx, _⟩ := h
          subst hx
          have hlen : ((a :: l2).eraseIdx (k % (a :: l2).length)).length ≤ m := by
            have hklt : k % (a :: l2).length < (a :: l2).length :=
              Nat.mod_lt _ (Nat.succ_pos _)
            rw [List.length_eraseIdx, if_pos hklt]
            simp only [List.length_cons] at hl ⊢
            omega
          have hperm := ih _ hlen h2
          exact List.Perm.trans (List.Perm.cons _ hperm) (cons_get_eraseIdx_perm (a :: l2) _)

theorem shuffle_perm {α : Type} (l : List α) {r : Rng} {xs : List α} {r' : Rng}
    (h : shuffle l r = some (xs, r')) : List.Perm xs l :=
  shuffleGo_perm l.length l (le_refl _) h

/-! ## Segmented variant lemmas: the trip loop -/

theorem sampleSegTrip_spec {nodes : List String} {og : List (String × List String)}
    {vo : List String} {sn : Bool} {nm : String} {s : Nat} {fl : Bool} {r : Rng}
    {t : Trip} {r' : Rng}
    (h : sampleSegTrip nodes og vo sn nm s fl r = some (t, r')) :
    t.origin ∈ vo ∧ t.link_origin ∈ linksOf og t.origin ∧ t.start = s ∧ t.count = 1 ∧
      ((fl || sn) = true → t.destination = t.origin) ∧
      ((fl || sn) = false → nodes.Nodup → 2 ≤ nodes.length → t.destination ≠ t.origin) := by
  unfold sampleSegTrip at h
  split at h
  · exact absurd h (by simp)
  · rename_i origin r1 h1
    split at h
    · exact absurd h (by simp)
    · rename_i links h2
      split at h
      · exact absurd h (by simp)
      · rename_i lk r2 h3
        split at h
        · exact absurd h (by simp)
        · rename_i dest r3 h4
          rw [Option.some.injEq, Prod.mk.injEq] at h
          obtain ⟨ht, _⟩ := h
          subst ht
          refine ⟨(choice_spec h1).1, ?_, rfl, rfl, ?_, ?_⟩
          · show lk ∈ linksOf og origin
            unfold linksOf
            rw [h2]
            exact (choice_spec h3).1
          · intro hfs
            rw [if_pos hfs] at h4
            rw [Option.some.injEq, Prod.mk.injEq] at h4
            exact h4.1.symm
          · intro hfs hnd hl
            rw [if_neg (by simp [hfs])] at h4
            exact destSelSeg_ne hnd hl h4

theorem genSegGo_main {nodes : List String} {og : List (String × List String)}
    {vo : List String} {sn : Bool} :
    ∀ (rem i : Nat) (ss : List Nat) (fs : List Bool) {r : Rng} {ts : List Trip} {r' : Rng},
      genSegGo nodes og vo sn i ss fs rem r = some (ts, r') →
      ts.length = rem ∧
        ∀ t ∈ ts, t.origin ∈ vo ∧ t.link_origin ∈ linksOf og t.origin ∧
          t.start ∈ ss.take rem ∧ t.count = 1 := by
  intro rem
  induction rem with
  | zero =>
    intro i ss fs r ts r' h
    simp only [genSegGo] at h
    rw [Option.some.injEq, Prod.mk.injEq] at h
    obtain ⟨hts, _⟩ := h
    subst hts
    simp
  | succ n ih =>
    intro i ss fs r ts r' h
    simp only [genSegGo] at h
    split at h
    · rename_i s ss' fl fs'
      split at h
      · exact absurd h (by simp)
      · rename_i t0 r0 h1
        split at h
        · exact absurd h (by simp)
        · rename_i ts0 r1 h2
          rw [Option.some.injEq, Prod.mk.injEq] at h
          obtain ⟨hts, _⟩ := h
          subst hts
          obtain ⟨hlen, hall⟩ := ih (i + 1) ss' fs' h2
          have hs := sampleSegTrip_spec h1
          refine ⟨by simp [hlen], ?_⟩
          intro t ht
          rcases List.mem_cons.mp ht with he | he
          · subst he
            refine ⟨hs.1, hs.2.1, ?_, hs.2.2.2.1⟩
            rw [List.take_succ_cons, hs.2.2.1]
            exact List.mem_cons_self s _
          · obtain ⟨ho, hli, hst, hc⟩ := hall t he
            refine ⟨ho, hli, ?_, hc⟩
            rw [List.take_succ_cons]
            exact List.mem_cons_of_mem s hst
    · exact absurd h (by simp)

theorem genSegGo_count {nodes : List String} {og : List (String × List String)}
    {vo : List String} (hnd : nodes.Nodup) (hl : 2 ≤ nodes.length) :
    ∀ (rem i : Nat) (ss : List Nat) (fs : List Bool) {r : Rng} {ts : List Trip} {r' : Rng},
      genSegGo nodes og vo false i ss fs rem r = some (ts, r') →
      ts.countP (fun t => decide (t.origin = t.destination)) =
        (fs.take rem).countP (fun b => b) := by
  intro rem
  induction rem with
  | zero =>
    intro i ss fs r ts r' h
    simp only [genSegGo] at h
    rw [Option.some.injEq, Prod.mk.injEq] at h
    obtain ⟨hts, _⟩ := h
    subst hts
    simp
  | succ n ih =>
    intro i ss fs r ts r' h
    simp only [genSegGo] at h
    split at h
    · rename_i s ss' fl fs'
      split at h
      · exact absurd h (by simp)
      · rename_i t0 r0 h1
        split at h
        · exact absurd h (by simp)
        · rename_i ts0 r1 h2
          rw [Option.some.injEq, Prod.mk.injEq] at h
          obtain ⟨hts, _⟩ := h
          subst hts
          have hs := sampleSegTrip_spec h1
          rw [List.take_succ_cons, List.countP_cons, List.countP_cons, ih (i + 1) ss' fs' h2]
          cases fl with
          | true =>
            have hde : t0.destination = t0.origin := hs.2.2.2.2.1 (by simp)
            simp [hde]
          | false =>
            have hde : t0.destination ≠ t0.origin := hs.2.2.2.2.2 (by simp) hnd hl
            have : ¬(t0.origin = t0.destination) := fun he => hde he.symm
            simp [this]
    · exact absurd h (by simp)

theorem genSegGo_single {nodes : List String} {og : List (String × List String)}
    {vo : List String} :
    ∀ (rem i : Nat) (ss : List Nat) (fs : List Bool) {r : Rng} {ts : List Trip} {r' : Rng},
      genSegGo nodes og vo true i ss fs rem r = some (ts, r') →
      ∀ t ∈ ts, t.origin = t.destination := by
  intro rem
  induction rem with
  | zero =>
    intro i ss fs r ts r' h
    simp only [genSegGo] at h
    rw [Option.some.injEq, Prod.mk.injEq] at h
    obtain ⟨hts, _⟩ := h
    subst hts
    simp
  | succ n ih =>
    intro i ss fs r ts r' h
    simp only [genSegGo] at h
    split at h
    · rename_i s ss' fl fs'
      split at h
      · exact absurd h (by simp)
      · rename_i t0 r0 h1
        split at h
        · exact absurd h (by simp)
        · rename_i ts0 r1 h2
          rw [Option.some.injEq, Prod.mk.injEq] at h
          obtain ⟨hts, _⟩ := h
          subst hts
          intro t ht
          rcases List.mem_cons.mp ht with he | he
          · subst he
            exact ((sampleSegTrip_spec h1).2.2.2.2.1 (by simp)).symm
          · exact ih (i + 1) ss' fs' h2 t he
    · exact absurd h (by simp)

theorem countP_replicate_true (n : Nat) :
    (List.replicate n true).countP (fun b => b) = n := by
  induction n with
  | zero => rfl
  | succ m ih => simp [List.replicate_succ, List.countP_cons, ih]

theorem countP_replicate_false (n : Nat) :
    (List.replicate n false).countP (fun b => b) = 0 := by
  induction n with
  | zero => rfl
  | succ m ih => simp [List.replicate_succ, List.countP_cons, ih]

/-! ## Segmented variant: whole-run lemmas -/

theorem generateTrips2_spec {nodes : List String} {og : List (String × List String)}
    {numTrips maxT : Nat} {slots : List Slot} {pct : ℚ} {r : Rng} {ts : List Trip} {r' : Rng}
    (h : generateTrips2 nodes og numTrips maxT slots pct r = some (ts, r')) :
    ts.length = numTrips ∧
      ∀ t ∈ ts, t.origin ∈ validOrigins nodes og ∧
        t.link_origin ∈ linksOf og t.origin ∧ t.start ≤ maxT ∧ t.count = 1 := by
  unfold generateTrips2 at h
  split at h
  · exact absurd h (by simp)
  · split at h
    · exact absurd h (by simp)
    · dsimp only at h
      split at h
      · exact absurd h (by simp)
      · rename_i starts r1 h1
        split at h
        · exact absurd h (by simp)
        · rename_i flags r2 h2
          obtain ⟨hlen, hall⟩ := genSegGo_main numTrips 0 starts flags h
          have ha := allocateStartTimes_spec h1
          refine ⟨hlen, ?_⟩
          intro t ht
          obtain ⟨ho, hli, hst, hc⟩ := hall t ht
          exact ⟨ho, hli, ha.2 t.start (List.take_subset _ _ hst), hc⟩

theorem generateTrips2_count {nodes : List String} {og : List (String × List String)}
    {numTrips maxT : Nat} {slots : List Slot} {f : ℚ} {r : Rng} {ts : List Trip} {r' : Rng}
    (hnd : nodes.Nodup) (hl : 2 ≤ nodes.length) (hf0 : 0 ≤ f) (hf1 : f ≤ 1)
    (h : generateTrips2 nodes og numTrips maxT slots f r = some (ts, r')) :
    ts.countP (fun t => decide (t.origin = t.destination)) =
      (⌊(numTrips : ℚ) * f⌋).toNat := by
  have hval : (((numTrips : ℤ) * f.num : ℤ) : ℚ) / ((f.den : ℕ) : ℚ) = (numTrips : ℚ) * f := by
    push_cast
    rw [mul_div_assoc, Rat.num_div_den]
  have htr : truncMulNat numTrips f = ⌊(numTrips : ℚ) * f⌋ := by
    unfold truncMulNat
    rw [Int.tdiv_eq_ediv (mul_nonneg (Int.natCast_nonneg numTrips) (Rat.num_nonneg.mpr hf0))
      (Int.natCast_nonneg f.den)]
    rw [← hval, Rat.floor_intCast_div_natCast]
  have htle : (truncMulNat numTrips f).toNat ≤ numTrips := by
    rw [htr]
    have hq : (numTrips : ℚ) * f ≤ (numTrips : ℚ) := by
      calc (numTrips : ℚ) * f ≤ (numTrips : ℚ) * 1 :=
            mul_le_mul_of_nonneg_left hf1 (Nat.cast_nonneg numTrips)
        _ = (numTrips : ℚ) := mul_one _
    have hfl : ⌊(numTrips : ℚ) * f⌋ ≤ (numTrips : ℤ) := by
      have hff := Int.floor_le_floor hq
      rwa [Int.floor_natCast] at hff
    omega
  have hsn : (nodes.length == 1) = false := by
    simp only [beq_eq_false_iff_ne, ne_eq]
    omega
  unfold generateTrips2 at h
  split at h
  · exact absurd h (by simp)
  · split at h
    · exact absurd h (by simp)
    · dsimp only at h
      rw [hsn] at h
      simp only [Bool.false_eq_true, if_false] at h
      split at h
      · exact absurd h (by simp)
      · rename_i starts r1 h1
        split at h
        · exact absurd h (by simp)
        · rename_i flags r2 h2
          have hperm := shuffle_perm _ h2
          have hflen : flags.length = numTrips := by
            rw [hperm.length_eq]
            rw [List.length_append, List.length_replicate, List.length_replicate]
            omega
          have hcnt := genSegGo_count hnd hl numTrips 0 starts flags h
          have htake : List.take numTrips flags = flags := by
            rw [← hflen]
            exact List.take_length flags
          rw [hcnt, htake, hperm.countP_eq, List.countP_append,
            countP_replicate_true, countP_replicate_false, ← htr]
          omega

theorem generateTrips2_single {nodes : List String} {og : List (String × List String)}
    {numTrips maxT : Nat} {slots : List Slot} {f : ℚ} {r : Rng} {ts : List Trip} {r' : Rng}
    (hl : nodes.length = 1)
    (h : generateTrips2 nodes og numTrips maxT slots f r = some (ts, r')) :
    ts.length = numTrips ∧ ∀ t ∈ ts, t.origin = t.destination := by
  have hsn : (nodes.length == 1) = true := by
    simp [hl]
  unfold generateTrips2 at h
  split at h
  · exact absurd h (by simp)
  · split at h
    · exact absurd h (by simp)
    · dsimp only at h
      rw [hsn] at h
      simp only [if_true] at h
      split at h
      · exact absurd h (by simp)
      · rename_i starts r1 h1
        split at h
        · exact absurd h (by simp)
        · rename_i flags r2 h2
          exact ⟨(genSegGo_main numTrips 0 starts flags h).1,
            genSegGo_single numTrips 0 starts flags h⟩

/-! ## Parser refinement lemma -/

theorem foldl_parseStep_nodeIds : ∀ (evs : List XEvent) (st : PState),
    (evs.foldl parseStep st).nodeIds = st.nodeIds ++ specNodeIds st.ctx evs := by
  intro evs
  induction evs with
  | nil => intro st; simp [specNodeIds]
  | cons e es ih =>
    intro st
    rw [List.foldl_cons, ih]
    cases e with
    | start tag attrs =>
      by_cases h1 : tag = "nodes"
      · subst h1
        simp [parseStep, specNodeIds]
      · by_cases h2 : tag = "links"
        · subst h2
          simp [parseStep, specNodeIds]
        · by_cases h3 : st.ctx = some Ctx.nodes ∧ tag = "node"
          · cases hid : attrGet attrs "id" with
            | some nid =>
              by_cases hnid : nid = ""
              · subst hnid
                simp [parseStep, specNodeIds, h1, h2, h3, hid]
              · simp [parseStep, specNodeIds, h1, h2, h3, hid, hnid]
            | none =>
              simp [parseStep, specNodeIds, h1, h2, h3, hid]
          · by_cases h4 : st.ctx = some Ctx.links ∧ tag = "link"
            · cases hf : attrGet attrs "from" with
              | some fv =>
                cases hi : attrGet attrs "id" with
                | some lid =>
                  by_cases hne : fv ≠ "" ∧ lid ≠ ""
                  · simp [parseStep, specNodeIds, h1, h2, h3, h4, hf, hi, hne]
                  · simp [parseStep, specNodeIds, h1, h2, h3, h4, hf, hi, hne]
                | none =>
                  simp [parseStep, specNodeIds, h1, h2, h3, h4, hf, hi]
              | none =>
                simp [parseStep, specNodeIds, h1, h2, h3, h4, hf]
            · simp [parseStep, specNodeIds, h1, h2, h3, h4]
    | stop tag =>
      by_cases h5 : tag = "nodes" ∨ tag = "links"
      · simp [parseStep, specNodeIds, h5]
      · simp [parseStep, specNodeIds, h5]

/-! ## Aggregation pipeline helpers -/

theorem mem_aggregateAndSort {raw : List Raw} {rec : Trip} (h : rec ∈ aggregateAndSort raw) :
    ∃ e ∈ aggregateFrom [] raw, rec.key = e.1 ∧ rec.count = e.2.1 := by
  unfold aggregateAndSort at h
  obtain ⟨rec', hrec', ho, hd, hs, hc⟩ := assignNames_mem _ 0 h
  have hmem : rec' ∈ (aggregateFrom [] raw).map entryToTrip :=
    (List.perm_insertionSort tripLE _).mem_iff.mp hrec'
  obtain ⟨e, he, hee⟩ := List.mem_map.mp hmem
  refine ⟨e, he, ?_, ?_⟩
  · have hkey : rec.key = rec'.key := by
      unfold Trip.key
      rw [ho, hd, hs]
    rw [hkey, ← hee]
    exact entryToTrip_key e
  · rw [hc, ← hee]
    exact entryToTrip_count e

theorem mem_aggregateAndSort_key {raw : List Raw} {rec : Trip}
    (h : rec ∈ aggregateAndSort raw) : rec.key ∈ raw.map Raw.key := by
  obtain ⟨e, he, hk, _⟩ := mem_aggregateAndSort h
  have hkeys : e.1 ∈ aggKeys (aggregateFrom [] raw) := List.mem_map.mpr ⟨e, he, rfl⟩
  rcases (aggregateFrom_mem raw [] e.1).mp hkeys with h0 | h0
  · exact absurd h0 (by simp [aggKeys])
  · rw [hk]
    exact h0

/-! ## Claim theorems -/

/-- C1: for every network with at least 2 nodes and at least one
valid-origin node, a completed run of the unaggregated generator — both the
basic script and the segmented script — emits exactly `numTrips` trip
records, and every emitted record has an origin in the valid-origin set and
a `link_origin` drawn from `outgoingLinks[origin]`. -/
theorem C1_unaggregated_count_and_support
    (nodes : List String) (og : List (String × List String)) (numTrips maxT : Nat)
    (slots : List Slot) (pct : ℚ) (r1 r2 : Rng) (ts1 ts2 : List Trip) (r1' r2' : Rng)
    (hn : 2 ≤ nodes.length) (hvo : validOrigins nodes og ≠ [])
    (h1 : generateTrips1 nodes og numTrips maxT r1 = some (ts1, r1'))
    (h2 : generateTrips2 nodes og numTrips maxT slots pct r2 = some (ts2, r2')) :
    (ts1.length = numTrips ∧ ∀ t ∈ ts1, t.origin ∈ validOrigins nodes og ∧
      t.link_origin ∈ linksOf og t.origin) ∧
    (ts2.length = numTrips ∧ ∀ t ∈ ts2, t.origin ∈ validOrigins nodes og ∧
      t.link_origin ∈ linksOf og t.origin) := by
  have s1 := generateTrips1_spec h1
  have s2 := generateTrips2_spec h2
  exact ⟨⟨s1.1, fun t ht => ⟨(s1.2 t ht).1, (s1.2 t ht).2.1⟩⟩,
    ⟨s2.1, fun t ht => ⟨(s2.2 t ht).1, (s2.2 t ht).2.1⟩⟩⟩

theorem C1_witness :
    2 ≤ (["a", "b"] : List String).length ∧
    validOrigins ["a", "b"] [("a", ["l1"])] ≠ [] ∧
    ([⟨"trip_1", "a", "b", "l1", 1, 3, "car", "false"⟩] : List Trip).length = 1 :=
  ⟨by decide, by decide,
    (C1_unaggregated_count_and_support ["a", "b"] [("a", ["l1"])] 1 9
      [⟨"s", 0, 9, 1⟩] 0 [0, 0, 1, 3] [0, 0, 0, 0, 1]
      [⟨"trip_1", "a", "b", "l1", 1, 3, "car", "false"⟩]
      [⟨"trip_1", "a", "b", "l1", 1, 0, "car", "false"⟩]
      [] []
      (by decide) (by decide) (by decide) (by decide)).1.1⟩

/-- `genGroup` success: every output record's origin/destination/start come
from some sampled raw trip satisfying the sampling invariants. -/
theorem genGroup_spec {nodes : List String} {og : List (String × List String)}
    {numTrips maxT : Nat} {r : Rng} {recs : List Trip} {r' : Rng}
    (h : genGroup nodes og numTrips maxT r = some (recs, r')) :
    ∀ rec ∈ recs, ∃ t : Raw, t.origin ∈ validOrigins nodes og ∧
      t.link_origin ∈ linksOf og t.origin ∧ t.start ≤ maxT ∧
      (1 < nodes.length → t.destination ≠ t.origin) ∧
      rec.origin = t.origin ∧ rec.destination = t.destination ∧ rec.start = t.start := by
  unfold genGroup at h
  split at h
  · rw [Option.some.injEq, Prod.mk.injEq] at h
    obtain ⟨hr, _⟩ := h
    subst hr
    intro rec hrec
    simp at hrec
  · split at h
    · rw [Option.some.injEq, Prod.mk.injEq] at h
      obtain ⟨hr, _⟩ := h
      subst hr
      intro rec hrec
      simp at hrec
    · split at h
      · exact absurd h (by simp)
      · rename_i raw r2 hgo
        rw [Option.some.injEq, Prod.mk.injEq] at h
        obtain ⟨hr, _⟩ := h
        subst hr
        intro rec hrec
        have hkey := mem_aggregateAndSort_key hrec
        obtain ⟨t, htraw, hteq⟩ := List.mem_map.mp hkey
        obtain ⟨_, hall⟩ := genGroupGo_spec numTrips hgo
        obtain ⟨ho, hli, hst, hne⟩ := hall t htraw
        exact ⟨t, ho, hli, hst, hne, (congrArg Prod.fst hteq).symm,
          (congrArg (fun p => p.2.1) hteq).symm, (congrArg (fun p => p.2.2) hteq).symm⟩

/-- C2: for every non-empty sequence of retained time slots (each slot
satisfying the data-model invariants `startSec ≤ endSec` and, being
retained, `startSec ≤ maxSimulationTime`) and every positive trip total, a
completed run of the start-time pool construction (per-slot quotas, last
slot absorbing the remainder, shortfall refill, truncation) yields a pool
of exactly `totalTrips` start times. -/
theorem C2_pool_exact_length
    (slots : List Slot) (numTrips maxT : Nat) (r : Rng) (p : List Nat) (r' : Rng)
    (hne : slots ≠ []) (hN : 0 < numTrips)
    (hinv : ∀ s ∈ slots, s.start_sec ≤ s.end_sec ∧ s.start_sec ≤ maxT)
    (h : allocateStartTimes slots numTrips maxT r = some (p, r')) :
    p.length = numTrips :=
  (allocateStartTimes_spec h).1

theorem C2_witness :
    ([⟨"s", 0, 9, 1⟩] : List Slot) ≠ [] ∧ 0 < 3 ∧ ([5, 6, 7] : List Nat).length = 3 :=
  ⟨by decide, by decide,
    C2_pool_exact_length [⟨"s", 0, 9, 1⟩] 3 9 [5, 6, 7] [5, 6, 7] []
      (by decide) (by decide) (by decide) (by decide)⟩

/-- C3: every start value emitted by any generator mode lies within
`[0, maxSimulationTime]` (the lower bound holds as start times are
naturals), and in time-slot mode each start time drawn for a slot's quota
lies within the slot's bounds after its end has been clipped to
`maxSimulationTime`. -/
theorem C3_start_time_bounds
    (nodes1 : List String) (og1 : List (String × List String)) (n1 maxT1 : Nat)
    (r1 : Rng) (ts1 : List Trip) (r1' : Rng)
    (nodes2 : List String) (og2 : List (String × List String)) (n2 maxT2 : Nat)
    (slots2 : List Slot) (pct2 : ℚ) (r2 : Rng) (ts2 : List Trip) (r2' : Rng)
    (nodes3 : List String) (og3 : List (String × List String)) (n3 maxT3 : Nat)
    (r3 : Rng) (recs3 : List Trip) (r3' : Rng)
    (s : Slot) (maxT4 n4 : Nat) (r4 : Rng) (xs4 : List Nat) (r4' : Rng)
    (h1 : generateTrips1 nodes1 og1 n1 maxT1 r1 = some (ts1, r1'))
    (h2 : generateTrips2 nodes2 og2 n2 maxT2 slots2 pct2 r2 = some (ts2, r2'))
    (h3 : genGroup nodes3 og3 n3 maxT3 r3 = some (recs3, r3'))
    (h4 : drawsFor s.start_sec (min s.end_sec maxT4) n4 r4 = some (xs4, r4')) :
    (∀ t ∈ ts1, t.start ≤ maxT1) ∧ (∀ t ∈ ts2, t.start ≤ maxT2) ∧
    (∀ t ∈ recs3, t.start ≤ maxT3) ∧
    (∀ x ∈ xs4, s.start_sec ≤ x ∧ x ≤ min s.end_sec maxT4) := by
  refine ⟨?_, ?_, ?_, (drawsFor_spec n4 h4).2⟩
  · intro t ht
    exact ((generateTrips1_spec h1).2 t ht).2.2.1
  · intro t ht
    exact ((generateTrips2_spec h2).2 t ht).2.2.1
  · intro t ht
    obtain ⟨u, _, _, hst, _, _, _, hstart⟩ := genGroup_spec h3 t ht
    rw [hstart]
    exact hst

theorem C3_witness :
    (∀ t ∈ ([⟨"trip_1", "a", "b", "l1", 1, 3, "car", "false"⟩] : List Trip), t.start ≤ 9) ∧
    (∀ x ∈ ([5] : List Nat),
      (⟨"s", 0, 9, 1⟩ : Slot).start_sec ≤ x ∧ x ≤ min (⟨"s", 0, 9, 1⟩ : Slot).end_sec 9) := by
  have h := C3_start_time_bounds
    ["a", "b"] [("a", ["l1"])] 1 9 [0, 0, 1, 3]
      [⟨"trip_1", "a", "b", "l1", 1, 3, "car", "false"⟩] []
    ["a", "b"] [("a", ["l1"])] 1 9 [⟨"s", 0, 9, 1⟩] 0 [0, 0, 0, 0, 1]
      [⟨"trip_1", "a", "b", "l1", 1, 0, "car", "false"⟩] []
    ["a", "b"] [("a", ["l1"])] 2 10 [0, 0, 1, 3, 0, 0, 1, 3]
      [⟨"trip_1", "a", "b", "l1", 2, 3, "car", "false"⟩] []
    ⟨"s", 0, 9, 1⟩ 9 1 [5] [5] []
    (by decide) (by decide) (by decide) (by decide)
  exact ⟨h.1, h.2.2.2⟩

/-- C4: in the segmented variant, over a network obeying the data-model
invariant (distinct node ids) with at least 2 nodes, a completed run with
`odEqualFraction` in `[0,1]` emits exactly `⌊totalTrips * odEqualFraction⌋`
trips with origin equal to destination; over a single-node network, all
emitted trips have origin equal to destination regardless of the requested
fraction. -/
theorem C4_od_equal_quota
    (nodes : List String) (og : List (String × List String)) (n maxT : Nat)
    (slots : List Slot) (f : ℚ) (r : Rng) (ts : List Trip) (r' : Rng)
    (nodes1 : List String) (og1 : List (String × List String)) (n1 maxT1 : Nat)
    (slots1 : List Slot) (f1 : ℚ) (r1 : Rng) (ts1 : List Trip) (r1' : Rng)
    (hnd : nodes.Nodup) (hn : 2 ≤ nodes.length) (hf0 : 0 ≤ f) (hf1 : f ≤ 1) (hN : 0 < n)
    (h : generateTrips2 nodes og n maxT slots f r = some (ts, r'))
    (hone : nodes1.length = 1)
    (h1 : generateTrips2 nodes1 og1 n1 maxT1 slots1 f1 r1 = some (ts1, r1')) :
    ts.countP (fun t => decide (t.origin = t.destination)) = (⌊(n : ℚ) * f⌋).toNat ∧
    (ts1.length = n1 ∧
      ts1.countP (fun t => decide (t.origin = t.destination)) = n1) := by
  refine ⟨generateTrips2_count hnd hn hf0 hf1 h, ?_⟩
  obtain ⟨hlen, hall⟩ := generateTrips2_single hone h1
  refine ⟨hlen, ?_⟩
  rw [← hlen]
  rw [List.countP_eq_length]
  intro t ht
  exact decide_eq_true (hall t ht)

theorem C4_witness :
    ([⟨"trip_1", "a", "b", "l1", 1, 0, "car", "false"⟩] : List Trip).countP
        (fun t => decide (t.origin = t.destination)) = (⌊((1 : Nat) : ℚ) * 0⌋).toNat ∧
    (([⟨"trip_1", "a", "a", "l1", 1, 0, "car", "false"⟩] : List Trip).length = 1 ∧
      ([⟨"trip_1", "a", "a", "l1", 1, 0, "car", "false"⟩] : List Trip).countP
        (fun t => decide (t.origin = t.destination)) = 1) :=
  C4_od_equal_quota ["a", "b"] [("a", ["l1"])] 1 9 [⟨"s", 0, 9, 1⟩] 0 [0, 0, 0, 0, 1]
    [⟨"trip_1", "a", "b", "l1", 1, 0, "car", "false"⟩] []
    ["a"] [("a", ["l1"])] 1 5 [⟨"s", 0, 5, 1⟩] 0 [0, 0, 0, 0]
    [⟨"trip_1", "a", "a", "l1", 1, 0, "car", "false"⟩] []
    (by decide) (by decide) (by decide) (by decide) (by decide)
    (by decide) (by decide) (by decide)

/-- C5: aggregation mode, for every sequence of generated raw trips: the
output has exactly one record per distinct `(origin, destination, start)`
key (its key list is duplicate-free and carries exactly the raw keys), each
record's count is the number of raw trips sharing its key, and the counts
sum to the raw total. -/
theorem C5_aggregation_partition (raw : List Raw) :
    ((aggregateAndSort raw).map Trip.key).Nodup ∧
    (∀ k, k ∈ (aggregateAndSort raw).map Trip.key ↔ k ∈ raw.map Raw.key) ∧
    (∀ rec ∈ aggregateAndSort raw,
      rec.count = raw.countP (fun t => decide (t.key = rec.key))) ∧
    ((aggregateAndSort raw).map Trip.count).sum = raw.length := by
  have hmapkey : (aggregateAndSort raw).map Trip.key =
      (List.insertionSort tripLE ((aggregateFrom [] raw).map entryToTrip)).map Trip.key :=
    assignNames_map_key _ 0
  have hpermk :
      List.Perm
        ((List.insertionSort tripLE ((aggregateFrom [] raw).map entryToTrip)).map Trip.key)
        (((aggregateFrom [] raw).map entryToTrip).map Trip.key) :=
    (List.perm_insertionSort tripLE _).map _
  have hkeys : ((aggregateFrom [] raw).map entryToTrip).map Trip.key =
      aggKeys (aggregateFrom [] raw) :=
    map_entryToTrip_key _
  have hnd : (aggKeys (aggregateFrom [] raw)).Nodup :=
    aggregateFrom_nodup raw [] (by simp [aggKeys])
  refine ⟨?_, ?_, ?_, ?_⟩
  · rw [hmapkey]
    refine (List.Perm.nodup_iff hpermk).mpr ?_
    rw [hkeys]
    exact hnd
  · intro k
    rw [hmapkey, hpermk.mem_iff, hkeys]
    rw [show (k ∈ aggKeys (aggregateFrom [] raw)) =
      (k ∈ aggKeys ([] : List AggEntry) ∨ k ∈ raw.map Raw.key) from
      propext (aggregateFrom_mem raw [] k)]
    simp [aggKeys]
  · intro rec hrec
    obtain ⟨e, he, hk, hc⟩ := mem_aggregateAndSort hrec
    obtain ⟨k0, c0, l0⟩ := e
    have hcc : c0 = aggCnt (aggregateFrom [] raw) k0 := entry_cnt_of_nodup _ hnd he
    have hfc := aggregateFrom_cnt raw [] k0
    rw [aggCnt_nil] at hfc
    rw [hc, hk]
    dsimp only at hcc ⊢
    rw [hcc, hfc]
    omega
  · have hmc : (aggregateAndSort raw).map Trip.count =
        (List.insertionSort tripLE ((aggregateFrom [] raw).map entryToTrip)).map Trip.count :=
      assignNames_map_count _ 0
    have hpermc :
        List.Perm
          ((List.insertionSort tripLE ((aggregateFrom [] raw).map entryToTrip)).map Trip.count)
          (((aggregateFrom [] raw).map entryToTrip).map Trip.count) :=
      (List.perm_insertionSort tripLE _).map _
    rw [hmc, hpermc.sum_eq, map_entryToTrip_count]
    have hft := aggregateFrom_total raw []
    rw [show aggTotal ([] : List AggEntry) = 0 from rfl] at hft
    rw [show ((aggregateFrom [] raw).map (fun e => e.2.1)).sum =
      aggTotal (aggregateFrom [] raw) from rfl]
    omega

theorem C5_witness :
    (⟨"trip_2", "a", "b", "l1", 2, 5, "car", "false"⟩ : Trip).count =
      ([⟨"a", "b", "l1", 5⟩, ⟨"a", "b", "l2", 5⟩, ⟨"a", "c", "l1", 2⟩] : List Raw).countP
        (fun t => decide (t.key = (⟨"trip_2", "a", "b", "l1", 2, 5, "car", "false"⟩ : Trip).key)) :=
  (C5_aggregation_partition [⟨"a", "b", "l1", 5⟩, ⟨"a", "b", "l2", 5⟩, ⟨"a", "c", "l1", 2⟩]).2.2.1
    ⟨"trip_2", "a", "b", "l1", 2, 5, "car", "false"⟩ (by decide)

/-- C6: aggregation mode output is non-decreasing in `start` across the
whole sequence, and the record at position `i` (zero-based) is named
`trip_(i+1)`: names follow the final sorted order. -/
theorem C6_sorted_output_and_names (raw : List Raw) :
    List.Pairwise (fun a b : Trip => a.start ≤ b.start) (aggregateAndSort raw) ∧
    ∀ i (h : i < (aggregateAndSort raw).length),
      ((aggregateAndSort raw).get ⟨i, h⟩).name = "trip_" ++ toString (i + 1) := by
  constructor
  · have hs : List.Pairwise tripLE
        (List.insertionSort tripLE ((aggregateFrom [] raw).map entryToTrip)) :=
      List.sorted_insertionSort tripLE _
    exact assignNames_pairwise _ 0 hs
  · intro i h
    have hg := assignNames_get_name
      (List.insertionSort tripLE ((aggregateFrom [] raw).map entryToTrip)) 0 i h
    have harith : "trip_" ++ toString (0 + i + 1) = "trip_" ++ toString (i + 1) := by
      rw [Nat.zero_add]
    exact hg.trans harith

theorem C6_witness :
    ((aggregateAndSort [⟨"a", "b", "l1", 5⟩, ⟨"a", "c", "l1", 2⟩]).get
      ⟨0, by decide⟩).name = "trip_" ++ toString 1 :=
  (C6_sorted_output_and_names [⟨"a", "b", "l1", 5⟩, ⟨"a", "c", "l1", 2⟩]).2 0 (by decide)

/-- C7 counterexample: the claim asserts a bounded number of destination
redraws in *every* generator mode, but the basic (and aggregating) scripts
redraw in an unbounded `while` loop with no attempt cap and no
complement-set fallback: on a two-node network an oracle that keeps
selecting the origin leaves the selection still unfinished after 20 draws,
far beyond `network size + small constant (+ one complement draw)`. -/
theorem C7_counterexample :
    destSelBasic ["a", "b"] "a" (List.replicate 20 0) = none ∧
    List.length ["a", "b"] + 7 < 20 := by
  decide

/-- C7 (amended): only the segmented variant's destination selection is
bounded: it consumes at most `len(node_ids) + 7` oracle draws (one initial
draw, at most `len(node_ids) + 5` redraws, at most one complement draw),
and it terminates with a result whenever the network is non-empty and that
many draws are available. -/
theorem C7_segmented_bounded_selection (nodes : List String) (origin : String) (r : Rng) :
    (∀ d r', destSelSeg nodes origin r = some (d, r') →
      r.length ≤ r'.length + (nodes.length + 7)) ∧
    (nodes ≠ [] → nodes.length + 7 ≤ r.length →
      (destSelSeg nodes origin r).isSome = true) :=
  ⟨fun _ _ h => destSelSeg_consume h, fun hn hr => destSelSeg_isSome hn hr⟩

theorem C7_witness :
    (destSelSeg ["a", "b"] "a" [1, 1, 1, 1, 1, 1, 1, 1, 1]).isSome = true :=
  (C7_segmented_bounded_selection ["a", "b"] "a" [1, 1, 1, 1, 1, 1, 1, 1, 1]).2
    (by decide) (by decide)

/-- C8 counterexample: on a document with one node, one link, and no valid
origin, the segmented variant's loader does not fail: it returns the parsed
nodes and links (its no-valid-origin check only prints a message). -/
theorem C8_counterexample :
    parseNetwork2 [XEvent.start "nodes" [], XEvent.start "node" [("id", "a")],
      XEvent.stop "node", XEvent.stop "nodes", XEvent.start "links" [],
      XEvent.start "link" [("from", "x"), ("id", "l1")], XEvent.stop "link",
      XEvent.stop "links"] = some (["a"], [("x", ["l1"])]) ∧
    (["a"] : List String) ≠ [] ∧
    ([("x", ["l1"])] : List (String × List String)) ≠ [] ∧
    validOriginCount ["a"] [("x", ["l1"])] = 0 := by
  decide

/-- C8 (amended): when nodes and links are both present but no node is a
valid origin, the basic and aggregating loaders fail (return no index)
while the segmented loader returns the parsed nodes and links anyway. -/
theorem C8_no_valid_origin_outcomes (evs : List XEvent)
    (hn : (evs.foldl parseStep initPState).nodeIds ≠ [])
    (hl : (evs.foldl parseStep initPState).outgoing ≠ [])
    (hv : validOriginCount (evs.foldl parseStep initPState).nodeIds
      (evs.foldl parseStep initPState).outgoing = 0) :
    parseNetwork1 evs = none ∧ parseNetwork3 evs = none ∧
    parseNetwork2 evs = some ((evs.foldl parseStep initPState).nodeIds,
      (evs.foldl parseStep initPState).outgoing) := by
  refine ⟨?_, ?_, ?_⟩
  · simp only [parseNetwork1]
    rw [if_pos ⟨hv, hn, hl⟩]
  · simp only [parseNetwork3, parseNetwork1]
    rw [if_pos ⟨hv, hn, hl⟩]
  · simp only [parseNetwork2]

theorem C8_witness :
    parseNetwork1 [XEvent.start "nodes" [], XEvent.start "node" [("id", "a")],
      XEvent.stop "node", XEvent.stop "nodes", XEvent.start "links" [],
      XEvent.start "link" [("from", "x"), ("id", "l1")], XEvent.stop "link",
      XEvent.stop "links"] = none ∧
    parseNetwork3 [XEvent.start "nodes" [], XEvent.start "node" [("id", "a")],
      XEvent.stop "node", XEvent.stop "nodes", XEvent.start "links" [],
      XEvent.start "link" [("from", "x"), ("id", "l1")], XEvent.stop "link",
      XEvent.stop "links"] = none ∧
    parseNetwork2 [XEvent.start "nodes" [], XEvent.start "node" [("id", "a")],
      XEvent.stop "node", XEvent.stop "nodes", XEvent.start "links" [],
      XEvent.start "link" [("from", "x"), ("id", "l1")], XEvent.stop "link",
      XEvent.stop "links"] = some (["a"], [("x", ["l1"])]) :=
  C8_no_valid_origin_outcomes [XEvent.start "nodes" [], XEvent.start "node" [("id", "a")],
    XEvent.stop "node", XEvent.stop "nodes", XEvent.start "links" [],
    XEvent.start "link" [("from", "x"), ("id", "l1")], XEvent.stop "link",
    XEvent.stop "links"] (by decide) (by decide) (by decide)

/-- C9 counterexample: a document whose nodes region repeats the id "a"
loads successfully in the basic variant and yields a nodes sequence with a
duplicate, so the loaded nodes sequence is not unique. -/
theorem C9_counterexample :
    parseNetwork1 [XEvent.start "nodes" [], XEvent.start "node" [("id", "a")],
      XEvent.stop "node", XEvent.start "node" [("id", "a")], XEvent.stop "node",
      XEvent.stop "nodes"] = some (["a", "a"], []) ∧
    ¬ (["a", "a"] : List String).Nodup := by
  decide

/-- C9 (amended): for every document on which load succeeds, the resulting
nodes sequence is exactly the ordered sequence of node-element ids read
inside a nodes region, in document order and with multiplicity (duplicates
are retained, not removed). -/
theorem C9_nodes_in_document_order (evs : List XEvent)
    {ns : List String} {og : List (String × List String)}
    (h : parseNetwork1 evs = some (ns, og)) : ns = specNodeIds none evs := by
  simp only [parseNetwork1] at h
  split at h
  · exact absurd h (by simp)
  · rw [Option.some.injEq, Prod.mk.injEq] at h
    obtain ⟨hn, _⟩ := h
    subst hn
    rw [foldl_parseStep_nodeIds evs initPState]
    exact List.nil_append _

theorem C9_witness :
    (["a"] : List String) = specNodeIds none [XEvent.start "nodes" [],
      XEvent.start "node" [("id", "a")], XEvent.stop "node", XEvent.stop "nodes"] :=
  @C9_nodes_in_document_order [XEvent.start "nodes" [],
    XEvent.start "node" [("id", "a")], XEvent.stop "node", XEvent.stop "nodes"]
    ["a"] [] (by decide)

/-- C10 (implicit): in the basic unaggregated variant and the aggregation
variant, over a network with at least 2 nodes, every emitted record has a
destination different from its origin — the rejection loop only exits when
the destination differs. -/
theorem C10_destination_differs
    (nodes : List String) (og : List (String × List String)) (n maxT : Nat)
    (r : Rng) (ts : List Trip) (r' : Rng)
    (nodesG : List String) (ogG : List (String × List String)) (nG maxTG : Nat)
    (rG : Rng) (recs : List Trip) (rG' : Rng)
    (hn : 2 ≤ nodes.length)
    (h1 : generateTrips1 nodes og n maxT r = some (ts, r'))
    (hnG : 2 ≤ nodesG.length)
    (hg : genGroup nodesG ogG nG maxTG rG = some (recs, rG')) :
    (∀ t ∈ ts, t.destination ≠ t.origin) ∧
    (∀ t ∈ recs, t.destination ≠ t.origin) := by
  constructor
  · intro t ht
    exact ((generateTrips1_spec h1).2 t ht).2.2.2.1 (by omega)
  · intro t ht
    obtain ⟨u, _, _, _, hne, ho, hd, _⟩ := genGroup_spec hg t ht
    rw [ho, hd]
    exact hne (by omega)

theorem C10_witness :
    (∀ t ∈ ([⟨"trip_1", "a", "b", "l1", 1, 3, "car", "false"⟩] : List Trip),
      t.destination ≠ t.origin) ∧
    (∀ t ∈ ([⟨"trip_1", "a", "b", "l1", 2, 3, "car", "false"⟩] : List Trip),
      t.destination ≠ t.origin) :=
  C10_destination_differs ["a", "b"] [("a", ["l1"])] 1 9 [0, 0, 1, 3]
    [⟨"trip_1", "a", "b", "l1", 1, 3, "car", "false"⟩] []
    ["a", "b"] [("a", ["l1"])] 2 10 [0, 0, 1, 3, 0, 0, 1, 3]
    [⟨"trip_1", "a", "b", "l1", 2, 3, "car", "false"⟩] []
    (by decide) (by decide) (by decide) (by decide)
